import Mathlib

/-!
Verification development for the Prooffolio backend (src/backend/server.js).

Modelling conventions of this shallow embedding:
- a JavaScript string is a list of characters (Str below);
- a JavaScript number is an exact rational; NaN is the value none of
  Option Rat where it can arise;
- a JavaScript Map is an insertion-ordered association list;
- regular expressions of the source are modelled by explicit character
  scanners, restricted to the ASCII whitespace characters, the only ones
  exercised by the development.
-/

set_option autoImplicit false

/-- Str models a JavaScript string as a list of characters. -/
abbrev Str := List Char

/-- Whitespace test for the regular-expression class of whitespace characters
(ASCII members). -/
def isWS (c : Char) : Bool :=
  c == ' ' || c == '\t' || c == '\n' || c == '\r' || c == '\x0b' || c == '\x0c'

/-- Model of the JavaScript String.prototype.trim. -/
def jsTrim (s : Str) : Str :=
  ((s.dropWhile isWS).reverse.dropWhile isWS).reverse

/-- Model of the helper norm from server.js line 120: trim, then lower-case.
(The source name norm collides with a Mathlib name, hence the suffix.) -/
def normName (s : Str) : Str :=
  (jsTrim s).map Char.toLower

/-- Sentence-ending punctuation of the chunker regular expression. -/
def isPunct (c : Char) : Bool := c == '.' || c == '!' || c == '?'

/-- Scanner for the sentence split of server.js line 102: split on a run of
whitespace immediately preceded by sentence punctuation (a lookbehind, so the
punctuation stays with the preceding sentence).  The accumulator holds the
current sentence reversed; none means the scanner is inside the whitespace
run that separates two sentences. -/
def splitGo : List Char → Option (List Char) → List (List Char)
  | [], none => [[]]
  | [], some acc => [acc.reverse]
  | c :: rest, none =>
    if isWS c then splitGo rest none else splitGo rest (some [c])
  | c :: rest, some acc =>
    if isWS c && isPunct (acc.headD ' ') then acc.reverse :: splitGo rest none
    else splitGo rest (some (c :: acc))

/-- Model of the split of the excerpt into sentences (line 102). -/
def splitSentences (s : Str) : List Str := splitGo s (some [])

/-- Chunk record produced by the chunker (artifact_id and text fields). -/
structure Chunk where
  artifact_id : Str
  text : Str
deriving DecidableEq

/-- Loop of createChunksFromText (server.js lines 103-113): greedily
accumulate sentences into a buffer, flushing the buffer as a chunk when
adding the next sentence would exceed 800 characters (only buffers longer
than 120 characters are kept; shorter ones are discarded), and stopping as
soon as maxChunks chunks exist. -/
def chunkGo (artifactId : Str) (maxChunks : Nat) :
    List Str → List Chunk → Str → List Chunk × Str
  | [], chunks, buf => (chunks, buf)
  | s :: rest, chunks, buf =>
    let next := if buf = [] then s else buf ++ ' ' :: s
    let st :=
      if 800 < next.length then
        (if 120 < buf.length then chunks ++ [⟨artifactId, jsTrim buf⟩] else chunks, s)
      else (chunks, next)
    if maxChunks ≤ st.1.length then st
    else chunkGo artifactId maxChunks rest st.1 st.2

/-- Model of createChunksFromText (server.js lines 99-116). -/
def createChunksFromText (text : Str) (artifactId : Str)
    (maxChunks : Nat) (maxChars : Nat) : List Chunk :=
  let excerpt := text.take maxChars
  let sentences := splitSentences excerpt
  let st := chunkGo artifactId maxChunks sentences [] []
  let chunks :=
    if 120 < st.2.length ∧ st.1.length < maxChunks then
      st.1 ++ [⟨artifactId, jsTrim st.2⟩]
    else st.1
  chunks.take maxChunks

/-- Evidence record: an artifact id and a snippet. -/
structure Evidence where
  artifact_id : Str
  snippet : Str
deriving DecidableEq

/-- Skill record: a name, a level and an evidence list. -/
structure Skill where
  name : Str
  level : Str
  evidence : List Evidence
deriving DecidableEq

/-- Characters of the level word beginner. -/
def beginnerStr : Str := ['b', 'e', 'g', 'i', 'n', 'n', 'e', 'r']

/-- Characters of the level word intermediate. -/
def intermediateStr : Str := ['i', 'n', 't', 'e', 'r', 'm', 'e', 'd', 'i', 'a', 't', 'e']

/-- Characters of the level word advanced. -/
def advancedStr : Str := ['a', 'd', 'v', 'a', 'n', 'c', 'e', 'd']

/-- Model of LEVEL_RANK (server.js line 119); an unknown level ranks 0. -/
def levelRank (l : Str) : Nat :=
  if l = beginnerStr then 1
  else if l = intermediateStr then 2
  else if l = advancedStr then 3
  else 0

/-- Key used by the evidence dedup of mergeSkills (line 135): the artifact
id, a vertical bar, and the snippet truncated to 240 characters. -/
def evKey (e : Evidence) : Str := e.artifact_id ++ '|' :: e.snippet.take 240

/-- Evidence entry as pushed by the dedup loop (line 136): the snippet is
stored truncated to 240 characters. -/
def truncEv (e : Evidence) : Evidence := ⟨e.artifact_id, e.snippet.take 240⟩

/-- Dedup-and-cap loop over concatenated evidence (lines 131-138): walk the
entries, skip an entry whose key was already seen, push the truncated entry
otherwise, and stop once three entries have been collected. -/
def dedupeEvGo : List Evidence → List Str → List Evidence → List Evidence
  | [], _, acc => acc
  | e :: rest, seen, acc =>
    if 3 ≤ acc.length then acc
    else if evKey e ∈ seen then dedupeEvGo rest seen acc
    else dedupeEvGo rest (evKey e :: seen) (acc ++ [truncEv e])

/-- Merged evidence list of the existing-name branch of mergeSkills. -/
def dedupeEv (es : List Evidence) : List Evidence := dedupeEvGo es [] []

/-- SkillMap models the JavaScript Map of mergeSkills as an
insertion-ordered association list with unique keys. -/
abbrev SkillMap := List (Str × Skill)

/-- Map.prototype.set: replace the entry in place when the key exists
(keeping its position), append at the end otherwise. -/
def mapSet : SkillMap → Str → Skill → SkillMap
  | [], k, v => [(k, v)]
  | p :: rest, k, v => if p.1 = k then (k, v) :: rest else p :: mapSet rest k v

/-- Map.prototype.get as an option-valued lookup. -/
def mapGet : SkillMap → Str → Option Skill
  | [], _ => none
  | p :: rest, k => if p.1 = k then some p.2 else mapGet rest k

/-- Body of the incoming loop of mergeSkills (lines 123-143): merge the
skill into the map entry of its normalised name, or insert it (with the
evidence capped to three entries) when the name is new. -/
def mergeIncoming (m : SkillMap) (s : Skill) : SkillMap :=
  match mapGet m (normName s.name) with
  | some cur =>
    let lvl := if levelRank cur.level < levelRank s.level then s.level else cur.level
    mapSet m (normName s.name)
      { cur with level := lvl, evidence := dedupeEv (cur.evidence ++ s.evidence) }
  | none => m ++ [(normName s.name, { s with evidence := s.evidence.take 3 })]

/-- Construction of the base map of mergeSkills (line 122): index the base
skills by normalised name, capping each evidence list to three entries. -/
def baseMap (base : List Skill) : SkillMap :=
  base.foldl (fun m s => mapSet m (normName s.name) { s with evidence := s.evidence.take 3 }) []

/-- Model of mergeSkills (server.js lines 121-145). -/
def mergeSkills (base incoming : List Skill) : List Skill :=
  ((incoming.foldl mergeIncoming (baseMap base)).map Prod.snd).take 120

/-- Stop-word list of the tokenizer (server.js line 184). -/
def STOP : List Str :=
  [['a'], ['a','n'], ['a','n','d'], ['t','h','e'], ['f','o','r'], ['t','o'], ['i','n'],
   ['o','f'], ['o','n'], ['w','i','t','h'], ['a','t'], ['a','s'], ['b','y'], ['o','r'],
   ['b','e'], ['i','s'], ['a','r','e'], ['a','m'], ['f','r','o','m'], ['t','h','a','t'],
   ['t','h','i','s'], ['i','t'], ['i','t','s'], ['w','e'], ['y','o','u'], ['t','h','e','y'],
   ['t','h','e','i','r'], ['o','u','r'], ['y','o','u','r'], ['i']]

/-- Character class kept by the tokenizer replace (line 189): lower-case
letters, digits, plus, hash, dot, hyphen and space. -/
def isTokenChar (c : Char) : Bool :=
  c.isLower || c.isDigit || c == '+' || c == '#' || c == '.' || c == '-' || c == ' '

/-- Model of tokenize (server.js lines 186-192): lower-case, replace every
character outside the allowed class by a space, split on whitespace, and
drop empty tokens and stop words. -/
def tokenize (s : Str) : List Str :=
  let cleaned := (s.map Char.toLower).map (fun c => if isTokenChar c then c else ' ')
  (cleaned.splitOn ' ').filter (fun t => decide (t ≠ [] ∧ t ∉ STOP))

/-- Keep-first deduplication with a seen accumulator. -/
def uniqFirstGo : List Str → List Str → List Str
  | [], _ => []
  | x :: rest, seen =>
    if x ∈ seen then uniqFirstGo rest seen else x :: uniqFirstGo rest (x :: seen)

/-- Keep-first deduplication, the model of a JavaScript Set spread (the
helper uniq of line 185). -/
def uniqFirst (l : List Str) : List Str := uniqFirstGo l []

/-- JavaScript Array.prototype.join with a single-space separator. -/
def joinSp (xs : List Str) : Str := List.intercalate [' '] xs

/-- Preference record of the profile (only fields read by the modelled
functions are included; an absent field is the empty string or list). -/
structure Preferences where
  summary : Str
  goals : List Str
  interests : List Str
  industries : List Str
  role_types : List Str
  locations : List Str
  work_modes : List Str
  company_size : List Str
  constraints : List Str
deriving DecidableEq

/-- Inner profile object: about text, interests and preferences. -/
structure ProfileInfo where
  about : Str
  interests : List Str
  preferences : Preferences
deriving DecidableEq

/-- Profile as consumed by the ranking pipeline; fields of the response
object not read by the modelled functions are omitted. -/
structure Profile where
  profile : ProfileInfo
deriving DecidableEq

/-- Model of derivePreferenceTokens (server.js lines 215-225): gather the
about text, the interests and every preference field into a bag, tokenize
the joined bag (with the about text appended once more), deduplicate
keeping first occurrences, and cap at 200 tokens.  The conditional pushes
of the source skip exactly the empty values. -/
def derivePreferenceTokens (p : Profile) : List Str :=
  let pref := p.profile.preferences
  let bag : List Str :=
    (if p.profile.about ≠ [] then [p.profile.about] else []) ++
    p.profile.interests ++
    (if pref.summary ≠ [] then [pref.summary] else []) ++
    pref.goals ++ pref.interests ++ pref.industries ++ pref.role_types ++
    pref.locations ++ pref.work_modes ++ pref.company_size ++ pref.constraints
  (uniqFirst (tokenize (joinSp bag ++ ' ' :: p.profile.about))).take 200

/-- Job record of the static catalog. -/
structure Job where
  id : Str
  title : Str
  company : Str
  location : Str
  description : Str
  keywords : List Str
deriving DecidableEq

/-- Model of jobKeywords (lines 227-232). -/
def jobKeywords (j : Job) : List Str :=
  uniqFirst (tokenize (joinSp ([j.title, j.company, j.location, j.description] ++ j.keywords)))

/-- Model of jaccard (lines 193-198) on finite token sets; returns 0 when
the union is empty. -/
def jaccard (a b : Finset Str) : ℚ :=
  let inter : Nat := (a ∩ b).card
  let union : Nat := a.card + b.card - inter
  if union = 0 then 0 else (inter : ℚ) / (union : ℚ)

/-- Model of Math.round on an exact rational: floor of the value plus one
half (JavaScript rounds half-way cases towards positive infinity). -/
def jsRound (q : ℚ) : ℚ := ((⌊q + 1/2⌋ : ℤ) : ℚ)

/-- Candidate produced by the lexical prefilter. -/
structure Candidate where
  job : Job
  baseline_skill : ℚ
  baseline_preference : ℚ
  composite : ℚ
deriving DecidableEq

/-- Per-job scoring of prefilterCandidates (lines 237-243). -/
def scoreJob (sset pset : Finset Str) (j : Job) : Candidate :=
  let jset := (jobKeywords j).toFinset
  let skill := jaccard sset jset
  let pref := jaccard pset jset
  let composite := (if pref ≠ 0 then 7/10 * pref else 0) + (if skill ≠ 0 then 3/10 * skill else 0)
  ⟨j, jsRound (skill * 100), jsRound (pref * 100), composite⟩

/-- Descending-composite order with ties broken by the original index: the
order realised by the stable comparator sort of line 244. -/
def candBefore (a b : Nat × Candidate) : Prop :=
  b.2.composite < a.2.composite ∨ (a.2.composite = b.2.composite ∧ a.1 ≤ b.1)

instance candBeforeDec : DecidableRel candBefore := fun a b => by
  unfold candBefore; infer_instance

/-- Insertion step of the stable sort. -/
def insertCand (x : Nat × Candidate) : List (Nat × Candidate) → List (Nat × Candidate)
  | [] => [x]
  | y :: ys => if candBefore x y then x :: y :: ys else y :: insertCand x ys

/-- Stable descending sort of line 244 as an insertion sort on indexed
candidates (a stable comparator sort coincides with sorting by the pair of
descending composite and ascending original index). -/
def sortCands : List (Nat × Candidate) → List (Nat × Candidate)
  | [] => []
  | x :: xs => insertCand x (sortCands xs)

/-- Model of prefilterCandidates (lines 234-246): score every job, sort
descending by composite with the stable tie-break, take the first topN. -/
def prefilterCandidates (jobs : List Job) (skillTokens prefTokens : List Str) (topN : Nat) :
    List Candidate :=
  let scored := jobs.map (scoreJob skillTokens.toFinset prefTokens.toFinset)
  ((sortCands scored.enum).map Prod.snd).take topN

/-- Scores block of a ranked job; none models NaN. -/
structure Scores where
  preference : Option ℚ
  skill : Option ℚ
  overall : Option ℚ
deriving DecidableEq

/-- Ranked job: the job together with scores and reason strings. -/
structure RankedJob where
  job : Job
  scores : Scores
  reason_preference : Str
  reason_skill : Str
deriving DecidableEq

/-- Reason text Keyword/interest overlap baseline. -/
def reasonPrefOverlap : Str :=
  ['K','e','y','w','o','r','d','/','i','n','t','e','r','e','s','t',' ',
   'o','v','e','r','l','a','p',' ','b','a','s','e','l','i','n','e']

/-- Reason text No stated preferences; neutral. -/
def reasonNoPrefs : Str :=
  ['N','o',' ','s','t','a','t','e','d',' ','p','r','e','f','e','r','e','n','c','e','s',';',
   ' ','n','e','u','t','r','a','l']

/-- Reason text Skill keyword overlap baseline. -/
def reasonSkillOverlap : Str :=
  ['S','k','i','l','l',' ','k','e','y','w','o','r','d',' ','o','v','e','r','l','a','p',
   ' ','b','a','s','e','l','i','n','e']

/-- Model of the capability-unconfigured branch of rerankWithClaude
(server.js lines 248-269): return the first limit candidates with the
lexical baselines as scores; overall is the rounded blend when preference
tokens exist, else the skill baseline alone. -/
def rerankNoCapability (p : Profile) (candidates : List Candidate) (limit : Nat) :
    List RankedJob :=
  let hasPrefs := 0 < (derivePreferenceTokens p).length
  (candidates.take limit).map (fun c =>
    let preference := c.baseline_preference
    let skill := c.baseline_skill
    let overall := if hasPrefs then jsRound (7/10 * preference + 3/10 * skill) else skill
    ⟨c.job, ⟨some preference, some skill, some overall⟩,
      (if hasPrefs then reasonPrefOverlap else reasonNoPrefs), reasonSkillOverlap⟩)

/-- Dynamic JavaScript value as found in a parsed capability response. -/
inductive JVal where
  | undef
  | jnull
  | num (x : ℚ)
  | nan
  | str (s : Str)
deriving DecidableEq

/-- JavaScript truthiness of the modelled values. -/
def truthy : JVal → Bool
  | .undef => false
  | .jnull => false
  | .num x => decide (x ≠ 0)
  | .nan => false
  | .str s => decide (s ≠ [])

/-- Short-circuit a-or-b of JavaScript: the first operand when truthy, the
second otherwise. -/
def jsOr (a b : JVal) : JVal := if truthy a then a else b

/-- Result of the Number conversion: NaN, a finite (exact rational) value,
or a signed infinity. -/
inductive JNum where
  | nan
  | finite (x : ℚ)
  | posInf
  | negInf
deriving DecidableEq

/-- Value of a nonempty string of decimal digits. -/
def digitsToNat (ds : Str) : Nat := ds.foldl (fun n c => 10 * n + (c.toNat - 48)) 0

/-- Hexadecimal digit test (0-9, a-f, A-F). -/
def isHexDigit (c : Char) : Bool :=
  c.isDigit || decide ('a' ≤ c.toLower) && decide (c.toLower ≤ 'f')

/-- Value of one hexadecimal digit. -/
def hexDigitVal (c : Char) : Nat :=
  if c.isDigit then c.toNat - 48 else c.toLower.toNat - 87

/-- Octal digit test. -/
def isOctDigit (c : Char) : Bool := decide ('0' ≤ c) && decide (c ≤ '7')

/-- Binary digit test. -/
def isBinDigit (c : Char) : Bool := c == '0' || c == '1'

/-- Radix-prefixed integer literals of the StringToNumber grammar: 0x / 0X
hexadecimal, 0o / 0O octal, 0b / 0B binary (no sign allowed on these). -/
def radixValue (t : Str) : Option ℚ :=
  match t with
  | '0' :: c :: ds =>
    if (c = 'x' ∨ c = 'X') ∧ ds ≠ [] ∧ ds.all isHexDigit then
      some ((ds.foldl (fun n d => 16 * n + hexDigitVal d) 0 : Nat) : ℚ)
    else if (c = 'o' ∨ c = 'O') ∧ ds ≠ [] ∧ ds.all isOctDigit then
      some ((ds.foldl (fun n d => 8 * n + (d.toNat - 48)) 0 : Nat) : ℚ)
    else if (c = 'b' ∨ c = 'B') ∧ ds ≠ [] ∧ ds.all isBinDigit then
      some ((ds.foldl (fun n d => 2 * n + (d.toNat - 48)) 0 : Nat) : ℚ)
    else none
  | _ => none

/-- Exponent part of a decimal literal: empty (exponent 0), or e / E with an
optional sign and a nonempty digit run consuming the whole remainder. -/
def expValue (t : Str) : Option Int :=
  match t with
  | [] => some 0
  | c :: rest =>
    if c = 'e' ∨ c = 'E' then
      match rest with
      | '+' :: ds =>
        if ds ≠ [] ∧ ds.all Char.isDigit then some ((digitsToNat ds : Nat) : Int) else none
      | '-' :: ds =>
        if ds ≠ [] ∧ ds.all Char.isDigit then some (-((digitsToNat ds : Nat) : Int)) else none
      | ds =>
        if ds ≠ [] ∧ ds.all Char.isDigit then some ((digitsToNat ds : Nat) : Int) else none
    else none

/-- Value of a fractional digit run. -/
def fracVal (fp : Str) : ℚ := ((digitsToNat fp : Nat) : ℚ) / (10 : ℚ) ^ fp.length

/-- Unsigned decimal literal of the StringToNumber grammar, consuming the
whole string: digits with an optional dot, optional fraction digits and an
optional exponent, or a dot followed by fraction digits and an optional
exponent. -/
def parseDecimalQ (t : Str) : Option ℚ :=
  let ip := t.takeWhile Char.isDigit
  let r1 := t.drop ip.length
  if ip = [] then
    match r1 with
    | '.' :: r2 =>
      let fp := r2.takeWhile Char.isDigit
      if fp = [] then none
      else
        match expValue (r2.drop fp.length) with
        | some e => some (fracVal fp * (10 : ℚ) ^ e)
        | none => none
    | _ => none
  else
    match r1 with
    | '.' :: r2 =>
      let fp := r2.takeWhile Char.isDigit
      match expValue (r2.drop fp.length) with
      | some e => some ((((digitsToNat ip : Nat) : ℚ) + fracVal fp) * (10 : ℚ) ^ e)
      | none => none
    | _ =>
      match expValue r1 with
      | some e => some (((digitsToNat ip : Nat) : ℚ) * (10 : ℚ) ^ e)
      | none => none

/-- Characters of the word Infinity. -/
def infinityStr : Str := ['I', 'n', 'f', 'i', 'n', 'i', 't', 'y']

/-- Model of the JavaScript StringToNumber conversion: trim whitespace; the
empty string is 0; a radix-prefixed integer (0x / 0o / 0b, unsigned); or an
optional sign followed by the word Infinity or by a decimal literal with
an optional fraction and exponent; everything else is NaN.  Values are kept
as exact rationals (numbers of this embedding), not rounded to binary
floating point. -/
def jsStrToNumber (s : Str) : JNum :=
  let t := jsTrim s
  if t = [] then .finite 0
  else
    match radixValue t with
    | some q => .finite q
    | none =>
      let neg := t.headD ' ' = '-'
      let body := if t.headD ' ' = '-' ∨ t.headD ' ' = '+' then t.tail else t
      if body = infinityStr then (if neg then .negInf else .posInf)
      else
        match parseDecimalQ body with
        | some q => .finite (if neg then -q else q)
        | none => .nan

/-- Model of the Number conversion on the modelled values; strings go
through the StringToNumber grammar above. -/
def jsToNumber : JVal → JNum
  | .undef => .nan
  | .jnull => .finite 0
  | .num x => .finite x
  | .nan => .nan
  | .str s => jsStrToNumber s

/-- Clamp of lines 318-320: Math.max(0, Math.min(100, x)), with NaN (none)
propagating and the infinities clamping to the interval ends. -/
def clamp100 : JNum → Option ℚ
  | .nan => none
  | .finite v => some (max 0 (min 100 v))
  | .posInf => some 100
  | .negInf => some 0

/-- Score of a raw value v, lines 318-319: clamp of Number of v-or-0. -/
def rawScore (v : JVal) : Option ℚ := clamp100 (jsToNumber (jsOr v (.num 0)))

/-- Scores object of one parsed match. -/
structure RawScores where
  preference : JVal
  skill : JVal
  overall : JVal
deriving DecidableEq

/-- One parsed match of the capability response. -/
structure RawMatch where
  job_id : Str
  scores : Option RawScores
  reason_preference : Option Str
  reason_skill : Option Str
deriving DecidableEq

/-- Optional-chaining access to the preference score; undefined when the
scores object is missing. -/
def rawPref (m : RawMatch) : JVal :=
  match m.scores with | none => .undef | some s => s.preference

/-- Optional-chaining access to the skill score. -/
def rawSkill (m : RawMatch) : JVal :=
  match m.scores with | none => .undef | some s => s.skill

/-- Optional-chaining access to the overall score. -/
def rawOverall (m : RawMatch) : JVal :=
  match m.scores with | none => .undef | some s => s.overall

/-- Model of the byId lookup (line 314): Object.fromEntries keeps the last
entry per id, so the fold keeps the last matching job. -/
def byId (jobs : List Job) (i : Str) : Option Job :=
  jobs.foldl (fun acc j => if j.id = i then some j else acc) none

/-- Model of the response-processing stage of rerankWithClaude (lines
314-326): drop matches whose job id is not in the catalog, default falsy
scores to 0, clamp to the 0..100 range, and default a falsy overall score
to the rounded blend of the two clamped scores. -/
def processMatches (jobs : List Job) (ms : List RawMatch) : List RankedJob :=
  ms.filterMap (fun m =>
    match byId jobs m.job_id with
    | none => none
    | some j =>
      let preference := rawScore (rawPref m)
      let skill := rawScore (rawSkill m)
      let blend : JVal :=
        match preference, skill with
        | some p, some s => .num (jsRound (7/10 * p + 3/10 * s))
        | _, _ => .nan
      let overall := clamp100 (jsToNumber (jsOr (rawOverall m) blend))
      some ⟨j, ⟨preference, skill, overall⟩,
        m.reason_preference.getD [], m.reason_skill.getD []⟩)

/-- Process-wide stored state: the in-memory last profile (line 422) and
the durable latest snapshot (outputs/latest.json, line 577). -/
structure StoredState where
  lastProfile : Option Profile
  latestSnapshot : Option Profile
deriving DecidableEq

/-- Route outcome: a payload, a 400 client error, or a 500 server error. -/
inductive RouteResult (α : Type) where
  | ok (a : α)
  | clientError
  | serverError
deriving DecidableEq

/-- Model of the process route (lines 444-590).  The successful branch
computes a profile by chunking, extraction and merging through external
capabilities; that computation is passed in as the built argument, since
only the guard and the state update are relevant here.  When neither a
resume nor a paper is supplied (lines 455-457) the route answers a 400
client error before any work, leaving the state unchanged; on success it
overwrites the last-profile slot (line 571) and, when saving is enabled,
the snapshot (line 577). -/
def processRoute (built : Profile) (saveOutputs : Bool) (st : StoredState)
    (resume : Option Str) (papers : List Str) : StoredState × RouteResult Profile :=
  if resume = none ∧ papers = [] then (st, .clientError)
  else
    ({ lastProfile := some built,
       latestSnapshot := if saveOutputs then some built else st.latestSnapshot }, .ok built)

/-- Model of the recommend route guards (lines 593-647): prefer the durable
snapshot, fall back to the in-process last profile (lines 596-598), answer
a 400 client error when neither exists (line 600), and an empty result when
the catalog is empty (lines 601-603).  The ranked body (lines 605-642)
calls the external capability and is passed in as the body argument. -/
def recommendRoute (body : Profile → List RankedJob) (st : StoredState) (jobs : List Job) :
    RouteResult (List RankedJob) :=
  let profile := match st.latestSnapshot with
    | some p => some p
    | none => st.lastProfile
  match profile with
  | none => .clientError
  | some p => if jobs = [] then .ok [] else .ok (body p)

/-- Characters of the word all. -/
def allStr : Str := ['a', 'l', 'l']

/-- Model of parseInt(s, 10): skip leading whitespace, read an optional
sign, then a nonempty run of decimal digits; none models NaN. -/
def parseIntJS (s : Str) : Option Int :=
  let t := s.dropWhile isWS
  let signed : Int × Str :=
    match t with
    | '-' :: r => (-1, r)
    | '+' :: r => (1, r)
    | _ => (1, t)
  let ds := signed.2.takeWhile Char.isDigit
  if ds = [] then none
  else some (signed.1 * ((ds.foldl (fun n c => 10 * n + (c.toNat - 48)) 0 : Nat) : Int))

/-- Model of the limit computation of the recommend route (lines 605-607):
the limit parameter (or the word all when absent or empty) is lower-cased;
the sentinel all selects the whole catalog; otherwise parseInt with the
falsy fallback 10, capped by the catalog size. -/
def effectiveLimit (limitQ : Option Str) (jobsLen : Int) : Int :=
  let raw := match limitQ with
    | none => allStr
    | some s => if s = [] then allStr else s
  let limitParam := raw.map Char.toLower
  if limitParam = allStr then jobsLen
  else
    let p : Int :=
      match parseIntJS limitParam with
      | none => 10
      | some v => if v = 0 then 10 else v
    min p jobsLen

/-- Concrete one-field job fixture used by witnesses. -/
def jobJ : Job := ⟨['j'], [], [], [], [], []⟩

/-- Concrete profile fixture with one preference token. -/
def profRemote : Profile := ⟨⟨['r','e','m','o','t','e'], [], ⟨[],[],[],[],[],[],[],[],[]⟩⟩⟩

/-- Concrete profile fixture with no preference data at all. -/
def profEmpty : Profile := ⟨⟨[], [], ⟨[],[],[],[],[],[],[],[],[]⟩⟩⟩

/-- Join realising the buffer accumulation of the chunker over a block of
sentences: an empty buffer restarts at the next sentence, otherwise the
sentence is appended after a single space. -/
def bufJoin (bl : List Str) : Str :=
  bl.foldl (fun b s => if b = [] then s else b ++ ' ' :: s) []

/-- Largest sentence length of a sentence list. -/
def maxSentLen (S : List Str) : Nat := (S.map List.length).foldr max 0

/-- Instrumented chunker loop: the same control flow as chunkGo, carrying
for each flushed chunk the block of sentences whose joined buffer it came
from, together with the block of the current buffer. -/
def chunkGoI (maxChunks : Nat) :
    List Str → List (List Str) → List Str → List (List Str) × List Str
  | [], blocks, bblock => (blocks, bblock)
  | s :: rest, blocks, bblock =>
    let buf := bufJoin bblock
    let next := if buf = [] then s else buf ++ ' ' :: s
    let st :=
      if 800 < next.length then
        (if 120 < buf.length then blocks ++ [bblock] else blocks, [s])
      else (blocks, if buf = [] then [s] else bblock ++ [s])
    if maxChunks ≤ st.1.length then st
    else chunkGoI maxChunks rest st.1 st.2

instance : Inhabited Evidence := ⟨⟨[], []⟩⟩

instance : Inhabited Skill := ⟨⟨[], [], []⟩⟩

instance : Inhabited Chunk := ⟨⟨[], []⟩⟩

instance : Inhabited Job := ⟨⟨[], [], [], [], [], []⟩⟩

instance : Inhabited Candidate := ⟨⟨⟨[], [], [], [], [], []⟩, 0, 0, 0⟩⟩

instance : Inhabited Scores := ⟨⟨none, none, none⟩⟩

instance : Inhabited RankedJob := ⟨⟨⟨[], [], [], [], [], []⟩, ⟨none, none, none⟩, [], []⟩⟩

/-- Skills of a list whose normalised name is k. -/
def entriesFor (src : List Skill) (k : Str) : List Skill :=
  src.filter (fun s => decide (normName s.name = k))

/-- The level l is one of the levels of es and ranks at least as high as
every level of es. -/
def levelIsMax (es : List Skill) (l : Str) : Prop :=
  (∃ t ∈ es, t.level = l) ∧ ∀ t ∈ es, levelRank t.level ≤ levelRank l

/-- Invariant tying the merge map to the skills merged so far: keys are
unique, each key is the normalised name of its skill, the keys are exactly
the normalised names of the source, and each entry carries a maximal level
with at most three evidence entries. -/
def MapSpec (src : List Skill) (m : SkillMap) : Prop :=
  ((m.map Prod.fst).Nodup) ∧
  (∀ p ∈ m, p.1 = normName p.2.name) ∧
  (∀ k : Str, k ∈ m.map Prod.fst ↔ ∃ s ∈ src, normName s.name = k) ∧
  (∀ p ∈ m, levelIsMax (entriesFor src p.1) p.2.level ∧ p.2.evidence.length ≤ 3)

/-- Number of distinct normalised skill names of a list. -/
def distinctNames (l : List Skill) : Nat :=
  ((l.map (fun s => normName s.name)).dedup).length

/-- Well-formed evidence list: keys are distinct, entries are already
truncated, and there are at most three. -/
def EvGood (ev : List Evidence) : Prop :=
  ((ev.map evKey).Nodup) ∧ (∀ e ∈ ev, truncEv e = e) ∧ ev.length ≤ 3

/-- Stability of one map entry with respect to the skills merged so far:
its level dominates every entry of its name, its evidence is well formed,
and either the evidence is full (three entries) or it covers every
evidence key of every entry of its name.  Re-merging any of those skills
then leaves the entry unchanged. -/
def StableEntry (src : List Skill) (p : Str × Skill) : Prop :=
  (∀ t ∈ entriesFor src p.1, levelRank t.level ≤ levelRank p.2.level) ∧
  EvGood p.2.evidence ∧
  (p.2.evidence.length = 3 ∨
    ∀ t ∈ entriesFor src p.1, ∀ e ∈ t.evidence, evKey e ∈ p.2.evidence.map evKey)

lemma ws_not_punct (c : Char) (h : isWS c = true) : isPunct c = false := by
  simp only [isWS, Bool.or_eq_true, beq_iff_eq] at h
  rcases h with ((((h | h) | h) | h) | h) | h <;> subst h <;> decide

lemma splitGo_no_punct (l acc : List Char) (hl : ∀ c ∈ l, isPunct c = false)
    (hacc : ∀ c ∈ acc, isPunct c = false) :
    splitGo l (some acc) = [acc.reverse ++ l] := by
  induction l generalizing acc with
  | nil => simp [splitGo]
  | cons c rest ih =>
    have hc : isPunct (acc.headD ' ') = false := by
      cases acc with
      | nil => decide
      | cons a t => exact hacc a (List.mem_cons_self a t)
    have : (isWS c && isPunct (acc.headD ' ')) = false := by
      rw [hc]; exact Bool.and_false _
    rw [splitGo, this]
    simp only [Bool.false_eq_true, if_false]
    rw [ih (c :: acc) (fun x hx => hl x (List.mem_cons_of_mem _ hx))
      (fun x hx => by
        rcases List.mem_cons.mp hx with h | h
        · exact h ▸ hl c (List.mem_cons_self c rest)
        · exact hacc x h)]
    simp

lemma splitSentences_no_punct (l : Str) (hl : ∀ c ∈ l, isPunct c = false) :
    splitSentences l = [l] := by
  unfold splitSentences
  rw [splitGo_no_punct l [] hl (by simp)]
  simp

lemma jsTrim_all_ws (l : Str) (h : ∀ c ∈ l, isWS c = true) : jsTrim l = [] := by
  unfold jsTrim
  have h1 : l.dropWhile isWS = [] := List.dropWhile_eq_nil_iff.mpr h
  rw [h1]
  simp

lemma mem_mapSet {m : SkillMap} {k : Str} {v : Skill} {p : Str × Skill}
    (hp : p ∈ mapSet m k v) : p = (k, v) ∨ p ∈ m := by
  induction m with
  | nil => simp [mapSet] at hp; exact Or.inl hp
  | cons q rest ih =>
    by_cases hq : q.1 = k
    · rw [mapSet, if_pos hq] at hp
      rcases List.mem_cons.mp hp with h | h
      · exact Or.inl h
      · exact Or.inr (List.mem_cons_of_mem _ h)
    · rw [mapSet, if_neg hq] at hp
      rcases List.mem_cons.mp hp with h | h
      · exact Or.inr (h ▸ List.mem_cons_self _ _)
      · rcases ih h with h1 | h1
        · exact Or.inl h1
        · exact Or.inr (List.mem_cons_of_mem _ h1)

lemma dedupeEvGo_snippet_le (es : List Evidence) (seen : List Str) (acc : List Evidence)
    (hacc : ∀ e ∈ acc, e.snippet.length ≤ 240) :
    ∀ e ∈ dedupeEvGo es seen acc, e.snippet.length ≤ 240 := by
  induction es generalizing seen acc with
  | nil => simpa [dedupeEvGo] using hacc
  | cons e rest ih =>
    rw [dedupeEvGo]
    split
    · exact hacc
    · split
      · exact ih seen acc hacc
      · refine ih _ _ (fun x hx => ?_)
        rcases List.mem_append.mp hx with h | h
        · exact hacc x h
        · have : x = truncEv e := by simp at h; exact h
          subst this
          exact List.length_take_le 240 e.snippet

lemma dedupeEv_snippet_le (es : List Evidence) :
    ∀ e ∈ dedupeEv es, e.snippet.length ≤ 240 :=
  dedupeEvGo_snippet_le es [] [] (by simp)

lemma evBound_baseMapAux (base : List Skill) (m : SkillMap)
    (hm : ∀ p ∈ m, ∀ e ∈ p.2.evidence, e.snippet.length ≤ 240)
    (hb : ∀ s ∈ base, ∀ e ∈ s.evidence, e.snippet.length ≤ 240) :
    ∀ p ∈ base.foldl
      (fun m s => mapSet m (normName s.name) { s with evidence := s.evidence.take 3 }) m,
      ∀ e ∈ p.2.evidence, e.snippet.length ≤ 240 := by
  induction base generalizing m with
  | nil => exact hm
  | cons s rest ih =>
    simp only [List.foldl_cons]
    refine ih _ (fun p hp => ?_) (fun x hx => hb x (List.mem_cons_of_mem _ hx))
    rcases mem_mapSet hp with h | h
    · subst h
      intro e he
      exact hb s (List.mem_cons_self _ _) e (List.mem_of_mem_take he)
    · exact hm p h

lemma evBound_foldl_mergeIncoming (inc : List Skill) (m : SkillMap)
    (hm : ∀ p ∈ m, ∀ e ∈ p.2.evidence, e.snippet.length ≤ 240)
    (hi : ∀ s ∈ inc, ∀ e ∈ s.evidence, e.snippet.length ≤ 240) :
    ∀ p ∈ inc.foldl mergeIncoming m, ∀ e ∈ p.2.evidence, e.snippet.length ≤ 240 := by
  induction inc generalizing m with
  | nil => exact hm
  | cons s rest ih =>
    simp only [List.foldl_cons]
    refine ih _ (fun p hp => ?_) (fun x hx => hi x (List.mem_cons_of_mem _ hx))
    unfold mergeIncoming at hp
    rcases hcur : mapGet m (normName s.name) with _ | cur
    · rw [hcur] at hp
      rcases List.mem_append.mp hp with h | h
      · exact hm p h
      · have : p = (normName s.name, { s with evidence := s.evidence.take 3 }) := by simpa using h
        subst this
        intro e he
        exact hi s (List.mem_cons_self _ _) e (List.mem_of_mem_take he)
    · rw [hcur] at hp
      rcases mem_mapSet hp with h | h
      · subst h
        intro e he
        exact dedupeEv_snippet_le _ e he
      · exact hm p h

lemma mem_of_mem_mergeSkills {base incoming : List Skill} {s : Skill}
    (hs : s ∈ mergeSkills base incoming) :
    ∃ p ∈ incoming.foldl mergeIncoming (baseMap base), p.2 = s := by
  unfold mergeSkills at hs
  have h1 := List.mem_of_mem_take hs
  rcases List.mem_map.mp h1 with ⟨p, hp, hps⟩
  exact ⟨p, hp, hps⟩

set_option maxRecDepth 4000 in
/-- C8 counterexample: inserting a skill under a new name keeps its evidence
snippet as given, so a 241-character input snippet survives untruncated in
the output of mergeSkills. -/
theorem C8_counterexample :
    ¬ (∀ s ∈ mergeSkills [] [⟨['x'], beginnerStr, [⟨['a'], List.replicate 241 'z'⟩]⟩],
        ∀ e ∈ s.evidence, e.snippet.length ≤ 240) := by decide

/-- C8 amended: whenever every evidence snippet of the base and incoming
skill lists has at most 240 characters, every evidence snippet of every
skill in the output of mergeSkills has at most 240 characters.  (The
existing-name merge path always truncates to 240, but a skill inserted
under a new name keeps its snippets as given, hence the hypothesis.) -/
theorem C8_snippet_bound (base incoming : List Skill)
    (h : ∀ s ∈ base ++ incoming, ∀ e ∈ s.evidence, e.snippet.length ≤ 240) :
    ∀ s ∈ mergeSkills base incoming, ∀ e ∈ s.evidence, e.snippet.length ≤ 240 := by
  intro s hs
  rcases mem_of_mem_mergeSkills hs with ⟨p, hp, hps⟩
  have hbase : ∀ p ∈ baseMap base, ∀ e ∈ p.2.evidence, e.snippet.length ≤ 240 := by
    refine evBound_baseMapAux base [] (by simp) (fun x hx => ?_)
    exact h x (List.mem_append.mpr (Or.inl hx))
  have := evBound_foldl_mergeIncoming incoming (baseMap base) hbase
    (fun x hx => h x (List.mem_append.mpr (Or.inr hx))) p hp
  exact hps ▸ this

/-- C8 witness: a concrete instance of the amended bound. -/
theorem C8_witness :
    (∀ s ∈ ([] : List Skill) ++ [⟨['x'], beginnerStr, [⟨['a'], ['e']⟩]⟩],
      ∀ e ∈ s.evidence, e.snippet.length ≤ 240) ∧
    (∀ s ∈ mergeSkills [] [⟨['x'], beginnerStr, [⟨['a'], ['e']⟩]⟩],
      ∀ e ∈ s.evidence, e.snippet.length ≤ 240) :=
  ⟨by decide, C8_snippet_bound [] [⟨['x'], beginnerStr, [⟨['a'], ['e']⟩]⟩] (by decide)⟩

/-- C9: a profile-build request supplying neither a resume nor any paper is
rejected with a client error with the stored last-profile state unchanged,
and a job-recommendation request made before any profile has been built is
rejected with a client error. -/
theorem C9_rejects_without_documents_or_profile
    (built : Profile) (saveOutputs : Bool) (st : StoredState)
    (body : Profile → List RankedJob) (jobs : List Job) :
    processRoute built saveOutputs st none [] = (st, RouteResult.clientError) ∧
    recommendRoute body ⟨none, none⟩ jobs = RouteResult.clientError := by
  constructor
  · simp [processRoute]
  · simp [recommendRoute]

/-- C10 counterexample: the limit parameter ALL (upper-case) is present and
is not the string all, yet the effective limit on an 11-job catalog is the
whole catalog (11), not the minimum of the parsed-or-default value 10 and
the catalog size. -/
theorem C10_counterexample :
    (['A', 'L', 'L'] : Str) ≠ allStr ∧
    effectiveLimit (some ['A', 'L', 'L']) 11 = 11 ∧
    (11 : Int) ≠ min 10 11 := by
  refine ⟨by decide, by decide, by decide⟩

/-- C10 amended: an absent, empty, or case-insensitively all limit selects
the whole catalog; any other present limit gives the minimum of the parsed
integer and the catalog size, a parse result of 0 or NaN being replaced by
the default 10. -/
theorem C10_limit_semantics (q : Option Str) (n : Int) :
    (q = none → effectiveLimit q n = n) ∧
    (∀ s, q = some s → (s = [] ∨ s.map Char.toLower = allStr) → effectiveLimit q n = n) ∧
    (∀ s, q = some s → s ≠ [] → s.map Char.toLower ≠ allStr →
      effectiveLimit q n =
        min (match parseIntJS (s.map Char.toLower) with
             | none => (10 : Int)
             | some v => if v = 0 then 10 else v) n) := by
  have hlow : List.map Char.toLower allStr = allStr := by decide
  refine ⟨?_, ?_, ?_⟩
  · intro hq; subst hq; simp [effectiveLimit, hlow]
  · intro s hq hs; subst hq
    rcases hs with hs | hs
    · subst hs; simp [effectiveLimit, hlow]
    · by_cases hse : s = []
      · subst hse; simp [effectiveLimit, hlow]
      · simp only [effectiveLimit]
        rw [if_neg hse, if_pos hs]
  · intro s hq hne hall; subst hq
    simp only [effectiveLimit]
    rw [if_neg hne, if_neg hall]

/-- C10 witness: a plain numeric limit on an 11-job catalog. -/
theorem C10_witness :
    (['7'] : Str) ≠ [] ∧ (['7'] : Str).map Char.toLower ≠ allStr ∧
    effectiveLimit (some ['7']) 11 = 7 := by
  have h := (C10_limit_semantics (some ['7']) 11).2.2 ['7'] rfl (by decide) (by decide)
  have hp : parseIntJS ((['7'] : Str).map Char.toLower) = some 7 := by decide
  rw [hp] at h
  refine ⟨by decide, by decide, ?_⟩
  simpa using h

lemma chunkGo_single (id : Str) (mc : Nat) (e : Str) :
    chunkGo id mc [e] [] [] = ([], e) := by
  simp only [chunkGo]
  split_ifs <;> simp_all [chunkGo]

set_option maxRecDepth 4000 in
/-- C5 counterexample: a whitespace-only text of 121 blanks yields one chunk
(with empty text) rather than the empty chunk sequence. -/
theorem C5_counterexample :
    (∀ c ∈ List.replicate 121 ' ', isWS c = true) ∧
    createChunksFromText (List.replicate 121 ' ') ['a', '1'] 6 3200 ≠ [] := by
  exact ⟨by decide, by decide⟩

/-- C5 amended: for empty or whitespace-only input text the chunker returns
the empty sequence exactly when the truncated text has at most 120
characters or the chunk cap is zero; a longer whitespace-only text yields a
single chunk whose text is empty (the buffer passes the 120-character gate
before trimming). -/
theorem C5_whitespace_behavior (t id : Str) (mc mcc : Nat)
    (h : ∀ c ∈ t, isWS c = true) :
    createChunksFromText t id mc mcc =
      if 120 < (t.take mcc).length ∧ 0 < mc then [⟨id, []⟩] else [] := by
  have hex : ∀ c ∈ t.take mcc, isWS c = true := fun c hc => h c (List.take_subset mcc t hc)
  have hpunct : ∀ c ∈ t.take mcc, isPunct c = false := fun c hc => ws_not_punct c (hex c hc)
  simp only [createChunksFromText]
  rw [splitSentences_no_punct _ hpunct, chunkGo_single, jsTrim_all_ws _ hex]
  by_cases hc : 120 < (t.take mcc).length ∧ 0 < mc
  · rw [if_pos ⟨hc.1, by simpa using hc.2⟩, if_pos hc]
    simp only [List.nil_append]
    exact List.take_of_length_le (by simpa using hc.2)
  · rw [if_neg (by simpa using hc), if_neg hc]
    simp

set_option maxRecDepth 8000 in
/-- C5 witness: a 130-blank text produces exactly one empty-text chunk. -/
theorem C5_witness :
    (∀ c ∈ List.replicate 130 ' ', isWS c = true) ∧
    createChunksFromText (List.replicate 130 ' ') ['a'] 6 3200 = [⟨['a'], []⟩] := by
  have h := C5_whitespace_behavior (List.replicate 130 ' ') ['a'] 6 3200 (by decide)
  refine ⟨by decide, ?_⟩
  rw [h]
  decide

lemma jsRound_eval (q : ℚ) (z : ℤ) (h1 : (z : ℚ) ≤ q + 1/2) (h2 : q + 1/2 < (z : ℚ) + 1) :
    jsRound q = (z : ℚ) := by
  unfold jsRound
  have h : ⌊q + 1/2⌋ = z := Int.floor_eq_iff.mpr ⟨h1, h2⟩
  rw [h]

lemma zip_map_self {α β : Type} (F : α → β) (l : List α) :
    ∀ pr ∈ (l.map F).zip l, pr.1 = F pr.2 := by
  induction l with
  | nil => simp
  | cons x xs ih =>
    intro pr hpr
    simp only [List.map_cons, List.zip_cons_cons] at hpr
    rcases List.mem_cons.mp hpr with h | h
    · subst h; rfl
    · exact ih pr h

/-- C1 counterexample: with the capability unconfigured and a profile that
does have preference tokens, a candidate with preference baseline 100 and
skill baseline 0 is returned with overall 70 (the rounded blend), not with
overall equal to the preference score 100. -/
theorem C1_counterexample :
    derivePreferenceTokens profRemote ≠ [] ∧
    (rerankNoCapability profRemote [⟨jobJ, 0, 100, 0⟩] 10).map (fun e => e.scores.overall)
      = [some (jsRound (7/10 * 100 + 3/10 * 0))] ∧
    jsRound (7/10 * 100 + 3/10 * 0) ≠ 100 := by
  have harith : (7/10 * (100:ℚ) + 3/10 * 0) = 70 := by norm_num
  have hround : jsRound (70:ℚ) = ((70:ℤ):ℚ) :=
    jsRound_eval 70 70 (by norm_num) (by norm_num)
  refine ⟨by decide, rfl, ?_⟩
  rw [harith, hround]
  norm_num

/-- C1 amended: with the capability unconfigured the reranker returns the
first limit shortlist entries, preference and skill scores equal to the
lexical baselines, and overall equal to the rounded blend of 0.7 preference
and 0.3 skill when the profile has preference tokens, else equal to the
skill baseline alone. -/
theorem C1_nocapability_scores (p : Profile) (cands : List Candidate) (limit : Nat) :
    (rerankNoCapability p cands limit).length = (cands.take limit).length ∧
    ∀ pr ∈ (rerankNoCapability p cands limit).zip (cands.take limit),
      pr.1.job = pr.2.job ∧
      pr.1.scores.preference = some pr.2.baseline_preference ∧
      pr.1.scores.skill = some pr.2.baseline_skill ∧
      pr.1.scores.overall = some (if 0 < (derivePreferenceTokens p).length
        then jsRound (7/10 * pr.2.baseline_preference + 3/10 * pr.2.baseline_skill)
        else pr.2.baseline_skill) := by
  constructor
  · simp [rerankNoCapability]
  · intro pr hpr
    have h1 := zip_map_self (fun c : Candidate =>
      (⟨c.job,
        ⟨some c.baseline_preference, some c.baseline_skill,
         some (if 0 < (derivePreferenceTokens p).length
           then jsRound (7/10 * c.baseline_preference + 3/10 * c.baseline_skill)
           else c.baseline_skill)⟩,
        (if 0 < (derivePreferenceTokens p).length then reasonPrefOverlap else reasonNoPrefs),
        reasonSkillOverlap⟩ : RankedJob)) (cands.take limit) pr hpr
    rw [h1]
    exact ⟨rfl, rfl, rfl, rfl⟩

/-- C1 witness: a profile without preference data keeps the skill baseline
as the overall score. -/
theorem C1_witness :
    (rerankNoCapability profEmpty [⟨jobJ, 5, 9, 0⟩] 3).length = 1 ∧
    ∀ pr ∈ (rerankNoCapability profEmpty [⟨jobJ, 5, 9, 0⟩] 3).zip
        (([⟨jobJ, 5, 9, 0⟩] : List Candidate).take 3),
      pr.1.scores.overall = some (if 0 < (derivePreferenceTokens profEmpty).length
        then jsRound (7/10 * pr.2.baseline_preference + 3/10 * pr.2.baseline_skill)
        else pr.2.baseline_skill) := by
  have h := C1_nocapability_scores profEmpty [⟨jobJ, 5, 9, 0⟩] 3
  exact ⟨by simpa using h.1, fun pr hpr => (h.2 pr hpr).2.2.2⟩

/-- Range predicate for a clamped score: the value is a number between 0
and 100 inclusive. -/
def inRange100 (v : Option ℚ) : Prop :=
  match v with
  | none => False
  | some q => 0 ≤ q ∧ q ≤ 100

instance inRange100Dec (v : Option ℚ) : Decidable (inRange100 v) := by
  unfold inRange100
  cases v <;> infer_instance

lemma inRange100_iff (v : Option ℚ) :
    inRange100 v ↔ ∃ q, v = some q ∧ 0 ≤ q ∧ q ≤ 100 := by
  cases v with
  | none => simp [inRange100]
  | some q => simp [inRange100]

lemma clamp100_cases (x : JNum) : clamp100 x = none ∨ inRange100 (clamp100 x) := by
  cases x with
  | nan => exact Or.inl rfl
  | finite q =>
    refine Or.inr ?_
    simp only [clamp100, inRange100]
    constructor
    · exact le_max_left 0 _
    · exact max_le (by norm_num) (min_le_left 100 q)
  | posInf =>
    refine Or.inr ?_
    simp only [clamp100, inRange100]
    norm_num
  | negInf =>
    refine Or.inr ?_
    simp only [clamp100, inRange100]
    norm_num

lemma byId_sound_aux (l : List Job) (i : Str) (j : Job) :
    ∀ acc : Option Job,
      l.foldl (fun acc j => if j.id = i then some j else acc) acc = some j →
      (j ∈ l ∧ j.id = i) ∨ acc = some j := by
  induction l with
  | nil => intro acc h; exact Or.inr h
  | cons x rest ih =>
    intro acc h
    simp only [List.foldl_cons] at h
    rcases ih _ h with h1 | h1
    · exact Or.inl ⟨List.mem_cons_of_mem _ h1.1, h1.2⟩
    · by_cases hx : x.id = i
      · rw [if_pos hx] at h1
        have : x = j := by injection h1
        subst this
        exact Or.inl ⟨List.mem_cons_self _ _, hx⟩
      · rw [if_neg hx] at h1
        exact Or.inr h1

lemma byId_sound {jobs : List Job} {i : Str} {j : Job} (h : byId jobs i = some j) :
    j ∈ jobs ∧ j.id = i := by
  rcases byId_sound_aux jobs i j none h with h1 | h1
  · exact h1
  · exact absurd h1 (by simp)

/-- C6 counterexample: a match with a known job id whose preference score is
the non-numeric string abc is kept, and its preference score becomes NaN
(none), neither the default 0 nor a value in the range 0 to 100. -/
theorem C6_counterexample :
    ¬ (∀ e ∈ processMatches [jobJ]
          [⟨['j'], some ⟨.str ['a', 'b', 'c'], .num 50, .num 50⟩, none, none⟩],
        inRange100 e.scores.preference ∧ inRange100 e.scores.skill ∧
        inRange100 e.scores.overall) := by decide

/-- C6 amended: every match whose job id is not in the catalog is discarded
(survivors carry a catalog job whose id matches some parsed match); every
surviving score is either NaN or a number clamped into the range 0 to 100;
a missing score defaults to 0; a score supplied as a string goes through the
StringToNumber conversion, so a numeric string is clamped like a number,
while a string that conversion rejects propagates as NaN instead of
defaulting to 0. -/
theorem C6_parse_semantics (jobs : List Job) (ms : List RawMatch) :
    (∀ e ∈ processMatches jobs ms,
      (e.job ∈ jobs ∧ ∃ m ∈ ms, m.job_id = e.job.id) ∧
      (e.scores.preference = none ∨ inRange100 e.scores.preference) ∧
      (e.scores.skill = none ∨ inRange100 e.scores.skill) ∧
      (e.scores.overall = none ∨ inRange100 e.scores.overall)) ∧
    rawScore JVal.undef = some 0 ∧
    (∀ s : Str, s ≠ [] → jsStrToNumber s = JNum.nan → rawScore (.str s) = none) ∧
    (∀ s : Str, ∀ q : ℚ, s ≠ [] → jsStrToNumber s = JNum.finite q →
      rawScore (.str s) = some (max 0 (min 100 q))) := by
  refine ⟨?_, by decide, ?_, ?_⟩
  · intro e he
    rcases List.mem_filterMap.mp he with ⟨m, hm, hfm⟩
    rcases hby : byId jobs m.job_id with _ | j
    · rw [hby] at hfm; exact absurd hfm (by simp)
    · rw [hby] at hfm
      simp only [Option.some.injEq] at hfm
      rcases byId_sound hby with ⟨hj1, hj2⟩
      subst hfm
      refine ⟨⟨hj1, m, hm, hj2.symm⟩, ?_, ?_, ?_⟩
      · exact clamp100_cases _
      · exact clamp100_cases _
      · exact clamp100_cases _
  · intro s hne hnan
    simp only [rawScore, jsOr, truthy, decide_eq_true_eq]
    rw [if_pos hne]
    simp only [jsToNumber]
    rw [hnan]
    rfl
  · intro s q hne hfin
    simp only [rawScore, jsOr, truthy, decide_eq_true_eq]
    rw [if_pos hne]
    simp only [jsToNumber]
    rw [hfin]
    rfl

/-- C6 witness: the numeric string 12.5 parses to the rational 25/2 and its
raw score is the clamp of that value, and a concrete surviving match with a
numeric over-range preference score and missing skill and overall scores
has an in-range-or-NaN preference. -/
theorem C6_witness :
    rawScore (.str ['1', '2', '.', '5']) = some (max 0 (min 100 (25/2))) ∧
    ∀ e ∈ processMatches [jobJ] [⟨['j'], some ⟨.num 150, .undef, .undef⟩, none, none⟩],
      (e.scores.preference = none ∨ inRange100 e.scores.preference) := by
  constructor
  · have hq : jsStrToNumber ['1', '2', '.', '5'] =
        JNum.finite ((((digitsToNat ['1', '2'] : Nat) : ℚ) + fracVal ['5']) *
          (10 : ℚ) ^ (0 : ℤ)) := rfl
    have h0 : ((((digitsToNat ['1', '2'] : Nat) : ℚ) + fracVal ['5']) *
        (10 : ℚ) ^ (0 : ℤ)) = 25/2 := by
      have hd : (digitsToNat ['1', '2'] : Nat) = 12 := rfl
      have hf : fracVal ['5'] =
          ((digitsToNat ['5'] : Nat) : ℚ) / (10 : ℚ) ^ (['5'] : Str).length := rfl
      have hd5 : (digitsToNat ['5'] : Nat) = 5 := rfl
      rw [hf, hd, hd5]
      norm_num
    exact (C6_parse_semantics [jobJ] []).2.2.2 ['1', '2', '.', '5'] (25/2)
      (by decide) (by rw [hq, h0])
  · intro e he
    exact ((C6_parse_semantics [jobJ]
      [⟨['j'], some ⟨.num 150, .undef, .undef⟩, none, none⟩]).1 e he).2.1

lemma jaccard_nonneg (a b : Finset Str) : 0 ≤ jaccard a b := by
  simp only [jaccard]
  split
  · exact le_refl 0
  · positivity

lemma jaccard_le_one (a b : Finset Str) : jaccard a b ≤ 1 := by
  simp only [jaccard]
  split
  · exact zero_le_one
  · rename_i h
    rw [div_le_one (by positivity)]
    have h1 : (a ∩ b).card ≤ a.card := Finset.card_le_card (Finset.inter_subset_left)
    have h2 : (a ∩ b).card ≤ b.card := Finset.card_le_card (Finset.inter_subset_right)
    have h3 : (a ∩ b).card ≤ a.card + b.card - (a ∩ b).card := by omega
    exact_mod_cast h3

lemma jaccard_empty_left (b : Finset Str) : jaccard ∅ b = 0 := by
  simp only [jaccard]
  split
  · rfl
  · simp

lemma scoreJob_composite_eq (sset pset : Finset Str) (j : Job) :
    (scoreJob sset pset j).composite =
      7/10 * jaccard pset (jobKeywords j).toFinset +
      3/10 * jaccard sset (jobKeywords j).toFinset := by
  simp only [scoreJob]
  by_cases hp : jaccard pset (jobKeywords j).toFinset = 0 <;>
    by_cases hs : jaccard sset (jobKeywords j).toFinset = 0 <;>
      simp [hp, hs]

lemma scoreJob_composite_bounds (sset pset : Finset Str) (j : Job) :
    0 ≤ (scoreJob sset pset j).composite ∧ (scoreJob sset pset j).composite ≤ 1 := by
  rw [scoreJob_composite_eq]
  have hp0 := jaccard_nonneg pset (jobKeywords j).toFinset
  have hp1 := jaccard_le_one pset (jobKeywords j).toFinset
  have hs0 := jaccard_nonneg sset (jobKeywords j).toFinset
  have hs1 := jaccard_le_one sset (jobKeywords j).toFinset
  constructor <;> nlinarith

lemma candBefore_total (a b : Nat × Candidate) : candBefore a b ∨ candBefore b a := by
  unfold candBefore
  rcases lt_trichotomy a.2.composite b.2.composite with h | h | h
  · exact Or.inr (Or.inl h)
  · rcases Nat.le_total a.1 b.1 with h1 | h1
    · exact Or.inl (Or.inr ⟨h, h1⟩)
    · exact Or.inr (Or.inr ⟨h.symm, h1⟩)
  · exact Or.inl (Or.inl h)

lemma candBefore_trans {a b c : Nat × Candidate}
    (h1 : candBefore a b) (h2 : candBefore b c) : candBefore a c := by
  unfold candBefore at *
  rcases h1 with h1 | ⟨h1e, h1i⟩ <;> rcases h2 with h2 | ⟨h2e, h2i⟩
  · exact Or.inl (lt_trans h2 h1)
  · exact Or.inl (h2e ▸ h1)
  · exact Or.inl (h1e ▸ h2)
  · exact Or.inr ⟨h1e.trans h2e, h1i.trans h2i⟩

lemma mem_insertCand {x z : Nat × Candidate} {l : List (Nat × Candidate)}
    (h : z ∈ insertCand x l) : z = x ∨ z ∈ l := by
  induction l with
  | nil => simpa [insertCand] using h
  | cons y ys ih =>
    rw [insertCand] at h
    split at h
    · rcases List.mem_cons.mp h with h1 | h1
      · exact Or.inl h1
      · exact Or.inr h1
    · rcases List.mem_cons.mp h with h1 | h1
      · exact Or.inr (h1 ▸ List.mem_cons_self _ _)
      · rcases ih h1 with h2 | h2
        · exact Or.inl h2
        · exact Or.inr (List.mem_cons_of_mem _ h2)

lemma pairwise_insertCand {x : Nat × Candidate} {l : List (Nat × Candidate)}
    (h : l.Pairwise candBefore) : (insertCand x l).Pairwise candBefore := by
  induction l with
  | nil => simp [insertCand]
  | cons y ys ih =>
    rw [insertCand]
    rcases List.pairwise_cons.mp h with ⟨hy, hys⟩
    split
    · rename_i hxy
      refine List.pairwise_cons.mpr ⟨?_, h⟩
      intro z hz
      rcases List.mem_cons.mp hz with h1 | h1
      · exact h1 ▸ hxy
      · exact candBefore_trans hxy (hy z h1)
    · rename_i hxy
      have hyx : candBefore y x := (candBefore_total x y).resolve_left hxy
      refine List.pairwise_cons.mpr ⟨?_, ih hys⟩
      intro z hz
      rcases mem_insertCand hz with h1 | h1
      · exact h1 ▸ hyx
      · exact hy z h1

lemma perm_insertCand (x : Nat × Candidate) (l : List (Nat × Candidate)) :
    List.Perm (insertCand x l) (x :: l) := by
  induction l with
  | nil => simp [insertCand]
  | cons y ys ih =>
    rw [insertCand]
    split
    · exact List.Perm.refl _
    · exact (List.Perm.cons y ih).trans (List.Perm.swap x y ys)

lemma sortCands_perm (l : List (Nat × Candidate)) : List.Perm (sortCands l) l := by
  induction l with
  | nil => exact List.Perm.refl _
  | cons x xs ih =>
    rw [sortCands]
    exact (perm_insertCand x (sortCands xs)).trans (List.Perm.cons x ih)

lemma sortCands_pairwise (l : List (Nat × Candidate)) :
    (sortCands l).Pairwise candBefore := by
  induction l with
  | nil => simp [sortCands]
  | cons x xs ih => exact pairwise_insertCand ih

/-- C7: the composite prefilter score of every job equals exactly 0.7 times
the preference Jaccard plus 0.3 times the skill Jaccard, a term vanishing
when its token set is empty; the composite always lies in the interval 0 to
1; and prefilterCandidates returns the first topN entries of the stable
descending sort of the scored catalog: descending composite order with ties
broken by the original catalog position. -/
theorem C7_prefilter_ordering (jobs : List Job) (skillTokens prefTokens : List Str)
    (topN : Nat) :
    (∀ j : Job,
      (scoreJob skillTokens.toFinset prefTokens.toFinset j).composite =
        7/10 * jaccard prefTokens.toFinset (jobKeywords j).toFinset +
        3/10 * jaccard skillTokens.toFinset (jobKeywords j).toFinset ∧
      0 ≤ (scoreJob skillTokens.toFinset prefTokens.toFinset j).composite ∧
      (scoreJob skillTokens.toFinset prefTokens.toFinset j).composite ≤ 1) ∧
    (prefTokens = [] →
      ∀ j : Job, jaccard prefTokens.toFinset (jobKeywords j).toFinset = 0) ∧
    (skillTokens = [] →
      ∀ j : Job, jaccard skillTokens.toFinset (jobKeywords j).toFinset = 0) ∧
    prefilterCandidates jobs skillTokens prefTokens topN =
      ((sortCands (jobs.map (scoreJob skillTokens.toFinset prefTokens.toFinset)).enum).map
        Prod.snd).take topN ∧
    List.Perm (sortCands (jobs.map (scoreJob skillTokens.toFinset prefTokens.toFinset)).enum)
      ((jobs.map (scoreJob skillTokens.toFinset prefTokens.toFinset)).enum) ∧
    (sortCands (jobs.map (scoreJob skillTokens.toFinset prefTokens.toFinset)).enum).Pairwise
      (fun a b => b.2.composite < a.2.composite ∨
        (a.2.composite = b.2.composite ∧ a.1 < b.1)) := by
  refine ⟨?_, ?_, ?_, rfl, sortCands_perm _, ?_⟩
  · intro j
    exact ⟨scoreJob_composite_eq _ _ j, scoreJob_composite_bounds _ _ j⟩
  · intro h j
    subst h
    simpa using jaccard_empty_left (jobKeywords j).toFinset
  · intro h j
    subst h
    simpa using jaccard_empty_left (jobKeywords j).toFinset
  · have hpair := sortCands_pairwise
      (jobs.map (scoreJob skillTokens.toFinset prefTokens.toFinset)).enum
    have hperm := sortCands_perm
      (jobs.map (scoreJob skillTokens.toFinset prefTokens.toFinset)).enum
    have hnd : ((sortCands
        (jobs.map (scoreJob skillTokens.toFinset prefTokens.toFinset)).enum).map
        Prod.fst).Nodup := by
      refine ((hperm.map Prod.fst).symm).nodup ?_
      rw [List.enum_map_fst]
      exact List.nodup_range _
    have hne : (sortCands
        (jobs.map (scoreJob skillTokens.toFinset prefTokens.toFinset)).enum).Pairwise
        (fun a b => a.1 ≠ b.1) := List.pairwise_map.mp hnd
    refine (hpair.and hne).imp ?_
    intro a b hab
    rcases hab with ⟨hc | ⟨he, hi⟩, hne1⟩
    · exact Or.inl hc
    · exact Or.inr ⟨he, lt_of_le_of_ne hi hne1⟩

/-- C7 witness: concrete instances of the empty-token and formula parts on
a one-job catalog. -/
theorem C7_witness :
    jaccard (List.toFinset ([] : List Str)) (jobKeywords jobJ).toFinset = 0 ∧
    (scoreJob (List.toFinset ([] : List Str)) (List.toFinset ([] : List Str)) jobJ).composite =
      7/10 * jaccard (List.toFinset ([] : List Str)) (jobKeywords jobJ).toFinset +
      3/10 * jaccard (List.toFinset ([] : List Str)) (jobKeywords jobJ).toFinset := by
  have h := C7_prefilter_ordering [jobJ] [] [] 5
  exact ⟨h.2.1 rfl jobJ, (h.1 jobJ).1⟩

lemma bufJoin_nil : bufJoin [] = [] := rfl

lemma bufJoin_single (s : Str) : bufJoin [s] = s := by
  simp [bufJoin]

lemma bufJoin_append_single (bl : List Str) (s : Str) :
    bufJoin (bl ++ [s]) = if bufJoin bl = [] then s else bufJoin bl ++ ' ' :: s := by
  simp [bufJoin, List.foldl_append]

lemma le_maxSentLen {S : List Str} {s : Str} (h : s ∈ S) : s.length ≤ maxSentLen S := by
  induction S with
  | nil => cases h
  | cons x rest ih =>
    rcases List.mem_cons.mp h with h1 | h1
    · subst h1
      exact le_max_left _ _
    · exact (ih h1).trans (le_max_right _ _)

lemma length_dropWhile_le' (p : Char → Bool) (l : List Char) :
    (l.dropWhile p).length ≤ l.length := by
  induction l with
  | nil => simp
  | cons c rest ih =>
    simp only [List.dropWhile_cons]
    split
    · exact le_trans ih (Nat.le_succ _)
    · exact le_refl _

lemma jsTrim_length_le (l : Str) : (jsTrim l).length ≤ l.length := by
  unfold jsTrim
  calc ((l.dropWhile isWS).reverse.dropWhile isWS).reverse.length
      = ((l.dropWhile isWS).reverse.dropWhile isWS).length := List.length_reverse _
    _ ≤ (l.dropWhile isWS).reverse.length := length_dropWhile_le' _ _
    _ = (l.dropWhile isWS).length := List.length_reverse _
    _ ≤ l.length := length_dropWhile_le' _ _

lemma chunkGo_eq_chunkGoI (id : Str) (mc : Nat) (sents : List Str) :
    ∀ (blocks : List (List Str)) (bblock : List Str),
      chunkGo id mc sents (blocks.map (fun bl => ⟨id, jsTrim (bufJoin bl)⟩)) (bufJoin bblock) =
        ((chunkGoI mc sents blocks bblock).1.map (fun bl => ⟨id, jsTrim (bufJoin bl)⟩),
          bufJoin (chunkGoI mc sents blocks bblock).2) := by
  induction sents with
  | nil => intro blocks bblock; rfl
  | cons s rest ih =>
    intro blocks bblock
    rw [chunkGo, chunkGoI]
    by_cases h800 : 800 < (if bufJoin bblock = [] then s else bufJoin bblock ++ ' ' :: s).length
    · rw [if_pos h800, if_pos h800]
      by_cases h120 : 120 < (bufJoin bblock).length
      · rw [if_pos h120, if_pos h120]
        have hmapapp :
            (blocks.map (fun bl => (⟨id, jsTrim (bufJoin bl)⟩ : Chunk))) ++
              [⟨id, jsTrim (bufJoin bblock)⟩] =
            (blocks ++ [bblock]).map (fun bl => ⟨id, jsTrim (bufJoin bl)⟩) := by
          simp
        rw [hmapapp]
        have hlen : ((blocks ++ [bblock]).map
            (fun bl => (⟨id, jsTrim (bufJoin bl)⟩ : Chunk))).length =
            (blocks ++ [bblock]).length := List.length_map _ _
        rw [hlen]
        by_cases hstop : mc ≤ (blocks ++ [bblock]).length
        · rw [if_pos hstop, if_pos hstop]
          rw [bufJoin_single]
        · rw [if_neg hstop, if_neg hstop]
          have := ih (blocks ++ [bblock]) [s]
          rw [bufJoin_single] at this
          exact this
      · rw [if_neg h120, if_neg h120]
        have hlen : (blocks.map (fun bl => (⟨id, jsTrim (bufJoin bl)⟩ : Chunk))).length =
            blocks.length := List.length_map _ _
        rw [hlen]
        by_cases hstop : mc ≤ blocks.length
        · rw [if_pos hstop, if_pos hstop]
          rw [bufJoin_single]
        · rw [if_neg hstop, if_neg hstop]
          have := ih blocks [s]
          rw [bufJoin_single] at this
          exact this
    · rw [if_neg h800, if_neg h800]
      have hlen : (blocks.map (fun bl => (⟨id, jsTrim (bufJoin bl)⟩ : Chunk))).length =
          blocks.length := List.length_map _ _
      rw [hlen]
      have hbuf : bufJoin (if bufJoin bblock = [] then [s] else bblock ++ [s]) =
          (if bufJoin bblock = [] then s else bufJoin bblock ++ ' ' :: s) := by
        by_cases hb : bufJoin bblock = []
        · rw [if_pos hb, if_pos hb, bufJoin_single]
        · rw [if_neg hb, if_neg hb, bufJoin_append_single, if_neg hb]
      by_cases hstop : mc ≤ blocks.length
      · rw [if_pos hstop, if_pos hstop]
        rw [hbuf]
      · rw [if_neg hstop, if_neg hstop]
        have := ih blocks (if bufJoin bblock = [] then [s] else bblock ++ [s])
        rw [hbuf] at this
        exact this

lemma chunkGoI_bounds (mc : Nat) (S : List Str) (sents : List Str) :
    ∀ (blocks : List (List Str)) (bblock : List Str),
      (∀ s ∈ sents, s ∈ S) →
      (bufJoin bblock).length ≤ max 800 (maxSentLen S) →
      (∀ bl ∈ blocks, 120 < (bufJoin bl).length ∧
        (bufJoin bl).length ≤ max 800 (maxSentLen S)) →
      (∀ bl ∈ (chunkGoI mc sents blocks bblock).1, 120 < (bufJoin bl).length ∧
        (bufJoin bl).length ≤ max 800 (maxSentLen S)) ∧
      (bufJoin (chunkGoI mc sents blocks bblock).2).length ≤ max 800 (maxSentLen S) := by
  induction sents with
  | nil =>
    intro blocks bblock _ hbuf hblocks
    exact ⟨hblocks, hbuf⟩
  | cons s rest ih =>
    intro blocks bblock hmem hbuf hblocks
    have hsS : s ∈ S := hmem s (List.mem_cons_self _ _)
    have hrestS : ∀ x ∈ rest, x ∈ S := fun x hx => hmem x (List.mem_cons_of_mem _ hx)
    have hsbound : (bufJoin [s]).length ≤ max 800 (maxSentLen S) := by
      rw [bufJoin_single]
      exact le_trans (le_maxSentLen hsS) (le_max_right _ _)
    rw [chunkGoI]
    by_cases h800 : 800 < (if bufJoin bblock = [] then s else bufJoin bblock ++ ' ' :: s).length
    · rw [if_pos h800]
      by_cases h120 : 120 < (bufJoin bblock).length
      · rw [if_pos h120]
        dsimp only
        have hblocks' : ∀ bl ∈ blocks ++ [bblock], 120 < (bufJoin bl).length ∧
            (bufJoin bl).length ≤ max 800 (maxSentLen S) := by
          intro bl hbl
          rcases List.mem_append.mp hbl with h | h
          · exact hblocks bl h
          · have hb : bl = bblock := by simpa using h
            subst hb
            exact ⟨h120, hbuf⟩
        by_cases hstop : mc ≤ (blocks ++ [bblock]).length
        · rw [if_pos hstop]
          exact ⟨hblocks', hsbound⟩
        · rw [if_neg hstop]
          exact ih (blocks ++ [bblock]) [s] hrestS hsbound hblocks'
      · rw [if_neg h120]
        dsimp only
        by_cases hstop : mc ≤ blocks.length
        · rw [if_pos hstop]
          exact ⟨hblocks, hsbound⟩
        · rw [if_neg hstop]
          exact ih blocks [s] hrestS hsbound hblocks
    · rw [if_neg h800]
      dsimp only
      have hnext : (bufJoin (if bufJoin bblock = [] then [s] else bblock ++ [s])).length ≤
          max 800 (maxSentLen S) := by
        by_cases hb : bufJoin bblock = []
        · rw [if_pos hb, bufJoin_single]
          exact le_trans (le_maxSentLen hsS) (le_max_right _ _)
        · rw [if_neg hb, bufJoin_append_single, if_neg hb]
          have h1 : (bufJoin bblock ++ ' ' :: s).length ≤ 800 := by
            rw [if_neg hb] at h800
            omega
          exact le_trans h1 (le_max_left _ _)
      by_cases hstop : mc ≤ blocks.length
      · rw [if_pos hstop]
        exact ⟨hblocks, hnext⟩
      · rw [if_neg hstop]
        exact ih blocks _ hrestS hnext hblocks

lemma chunkGoI_sublist (mc : Nat) (sents : List Str) :
    ∀ (blocks : List (List Str)) (bblock : List Str) (P : List Str),
      (blocks.flatten ++ bblock).Sublist P →
      ((chunkGoI mc sents blocks bblock).1.flatten ++
        (chunkGoI mc sents blocks bblock).2).Sublist (P ++ sents) := by
  induction sents with
  | nil =>
    intro blocks bblock P h
    simpa using h
  | cons s rest ih =>
    intro blocks bblock P h
    have hdrop : blocks.flatten.Sublist P :=
      (List.sublist_append_left _ _).trans h
    have hassoc : (P ++ [s]) ++ rest = P ++ s :: rest := by simp
    have hext : ∀ l : List Str, l.Sublist (P ++ [s]) → l.Sublist (P ++ s :: rest) := by
      intro l hl
      rw [← hassoc]
      exact hl.trans (List.sublist_append_left _ _)
    rw [chunkGoI]
    by_cases h800 : 800 < (if bufJoin bblock = [] then s else bufJoin bblock ++ ' ' :: s).length
    · rw [if_pos h800]
      by_cases h120 : 120 < (bufJoin bblock).length
      · rw [if_pos h120]
        dsimp only
        have hstep : ((blocks ++ [bblock]).flatten ++ [s]).Sublist (P ++ [s]) := by
          rw [List.flatten_append]
          simp only [List.flatten, List.append_nil]
          exact List.Sublist.append (by simpa using h) (List.Sublist.refl [s])
        by_cases hstop : mc ≤ (blocks ++ [bblock]).length
        · rw [if_pos hstop]
          exact hext _ hstep
        · rw [if_neg hstop]
          have hrec := ih (blocks ++ [bblock]) [s] (P ++ [s]) hstep
          rw [hassoc] at hrec
          exact hrec
      · rw [if_neg h120]
        dsimp only
        have hstep : (blocks.flatten ++ [s]).Sublist (P ++ [s]) :=
          List.Sublist.append hdrop (List.Sublist.refl [s])
        by_cases hstop : mc ≤ blocks.length
        · rw [if_pos hstop]
          exact hext _ hstep
        · rw [if_neg hstop]
          have hrec := ih blocks [s] (P ++ [s]) hstep
          rw [hassoc] at hrec
          exact hrec
    · rw [if_neg h800]
      dsimp only
      have hstep : (blocks.flatten ++
          (if bufJoin bblock = [] then [s] else bblock ++ [s])).Sublist (P ++ [s]) := by
        by_cases hb : bufJoin bblock = []
        · rw [if_pos hb]
          exact List.Sublist.append hdrop (List.Sublist.refl [s])
        · rw [if_neg hb, ← List.append_assoc]
          exact List.Sublist.append h (List.Sublist.refl [s])
      by_cases hstop : mc ≤ blocks.length
      · rw [if_pos hstop]
        exact hext _ hstep
      · rw [if_neg hstop]
        have hrec := ih blocks _ (P ++ [s]) hstep
        rw [hassoc] at hrec
        exact hrec

lemma flatten_take_sublist {α : Type} (l : List (List α)) (n : Nat) :
    (l.take n).flatten.Sublist l.flatten := by
  conv_rhs => rw [← List.take_append_drop n l]
  rw [List.flatten_append]
  exact List.sublist_append_left _ _

set_option maxRecDepth 10000 in
/-- C4 counterexample: a single sentence of 802 characters is emitted as a
chunk of 802 characters, exceeding the claimed 800-character bound. -/
theorem C4_counterexample :
    ¬ (∀ c ∈ createChunksFromText
          (List.replicate 801 'a' ++ ['.', ' ', 'b', '.']) ['a', '1'] 6 3200,
        c.text.length ≤ 800) := by decide

/-- C4 amended: the chunker emits at most maxChunks chunks; every chunk is
the whitespace-trim of the space-join of a block of sentences, the blocks
drawn from the sentence split of the truncated input in source order (their
concatenation is a sublist of the sentence sequence); every block join is
longer than 120 characters before trimming (the trimmed text may be
shorter), and no chunk exceeds the larger of 800 characters and the length
of the longest single sentence (a single over-long sentence is emitted
whole, so 800 alone is not a bound). -/
theorem C4_chunk_properties (t id : Str) (mc mcc : Nat) :
    (createChunksFromText t id mc mcc).length ≤ mc ∧
    ∃ blocks : List (List Str),
      createChunksFromText t id mc mcc =
        blocks.map (fun bl => ⟨id, jsTrim (bufJoin bl)⟩) ∧
      blocks.flatten.Sublist (splitSentences (t.take mcc)) ∧
      ∀ bl ∈ blocks,
        120 < (bufJoin bl).length ∧
        (bufJoin bl).length ≤ max 800 (maxSentLen (splitSentences (t.take mcc))) ∧
        (jsTrim (bufJoin bl)).length ≤ max 800 (maxSentLen (splitSentences (t.take mcc))) := by
  have hproj := chunkGo_eq_chunkGoI id mc (splitSentences (t.take mcc)) [] []
  have hbounds := chunkGoI_bounds mc (splitSentences (t.take mcc))
    (splitSentences (t.take mcc)) [] [] (fun s hs => hs) (by simp [bufJoin_nil]) (by simp)
  have hsub := chunkGoI_sublist mc (splitSentences (t.take mcc)) [] [] []
    (by simp [bufJoin_nil])
  simp only [List.nil_append] at hsub
  set I := chunkGoI mc (splitSentences (t.take mcc)) [] [] with hI
  set blocksF : List (List Str) :=
    if 120 < (bufJoin I.2).length ∧ I.1.length < mc then I.1 ++ [I.2] else I.1 with hBF
  have hmk : createChunksFromText t id mc mcc =
      (blocksF.take mc).map (fun bl => ⟨id, jsTrim (bufJoin bl)⟩) := by
    simp only [createChunksFromText]
    rw [show (([] : List Chunk) = ([] : List (List Str)).map
      (fun bl => (⟨id, jsTrim (bufJoin bl)⟩ : Chunk))) from rfl,
      show ([] : Str) = bufJoin [] from rfl, hproj]
    dsimp only
    rw [List.length_map]
    rw [hBF]
    by_cases hc : 120 < (bufJoin I.2).length ∧ I.1.length < mc
    · rw [if_pos hc, if_pos hc]
      rw [List.map_take]
      congr 1
      simp
    · rw [if_neg hc, if_neg hc]
      rw [List.map_take]
  have hflat : blocksF.flatten.Sublist (splitSentences (t.take mcc)) := by
    rw [hBF]
    by_cases hc : 120 < (bufJoin I.2).length ∧ I.1.length < mc
    · rw [if_pos hc]
      rw [List.flatten_append]
      simpa using hsub
    · rw [if_neg hc]
      exact ((List.sublist_append_left _ _).trans hsub)
  have hblmem : ∀ bl ∈ blocksF, 120 < (bufJoin bl).length ∧
      (bufJoin bl).length ≤ max 800 (maxSentLen (splitSentences (t.take mcc))) := by
    intro bl hbl
    rw [hBF] at hbl
    by_cases hc : 120 < (bufJoin I.2).length ∧ I.1.length < mc
    · rw [if_pos hc] at hbl
      rcases List.mem_append.mp hbl with h | h
      · exact hbounds.1 bl h
      · have hb : bl = I.2 := by simpa using h
        subst hb
        exact ⟨hc.1, hbounds.2⟩
    · rw [if_neg hc] at hbl
      exact hbounds.1 bl hbl
  refine ⟨?_, blocksF.take mc, hmk, (flatten_take_sublist _ _).trans hflat, ?_⟩
  · rw [hmk, List.length_map, List.length_take]
    omega
  · intro bl hbl
    have h1 := hblmem bl (List.mem_of_mem_take hbl)
    exact ⟨h1.1, h1.2, le_trans (jsTrim_length_le _) h1.2⟩

/-- C4 witness: a concrete application of the chunk-count bound. -/
theorem C4_witness :
    (createChunksFromText (List.replicate 200 'a') ['a'] 6 3200).length ≤ 6 :=
  (C4_chunk_properties (List.replicate 200 'a') ['a'] 6 3200).1

lemma keys_nodup_cons {p : Str × Skill} {rest : SkillMap}
    (h : ((p :: rest).map Prod.fst).Nodup) :
    p.1 ∉ rest.map Prod.fst ∧ (rest.map Prod.fst).Nodup := by
  rw [List.map_cons] at h
  exact List.nodup_cons.mp h

lemma mapGet_none_iff (m : SkillMap) (k : Str) :
    mapGet m k = none ↔ k ∉ m.map Prod.fst := by
  induction m with
  | nil => simp [mapGet]
  | cons p rest ih =>
    by_cases hp : p.1 = k
    · simp [mapGet, hp]
    · simp [mapGet, hp, ih, Ne.symm hp]

lemma mapGet_some_mem {m : SkillMap} {k : Str} {v : Skill}
    (h : mapGet m k = some v) : (k, v) ∈ m := by
  induction m with
  | nil => simp [mapGet] at h
  | cons p rest ih =>
    by_cases hp : p.1 = k
    · rw [mapGet, if_pos hp] at h
      have hv : p.2 = v := by injection h
      refine List.mem_cons.mpr (Or.inl ?_)
      rw [← hp, ← hv]
    · rw [mapGet, if_neg hp] at h
      exact List.mem_cons_of_mem _ (ih h)

lemma mapGet_some_of_mem {m : SkillMap} {k : Str} {v : Skill}
    (hnd : (m.map Prod.fst).Nodup) (h : (k, v) ∈ m) : mapGet m k = some v := by
  induction m with
  | nil => cases h
  | cons p rest ih =>
    rcases List.mem_cons.mp h with h1 | h1
    · rw [← h1, mapGet, if_pos rfl]
    · have hk : k ∈ rest.map Prod.fst := List.mem_map.mpr ⟨(k, v), h1, rfl⟩
      have hp : p.1 ≠ k := by
        intro hpk
        rcases keys_nodup_cons hnd with ⟨hp1, _⟩
        exact hp1 (hpk ▸ hk)
      rw [mapGet, if_neg hp]
      exact ih (keys_nodup_cons hnd).2 h1

lemma mapSet_keys_of_mem {m : SkillMap} {k : Str} (v : Skill)
    (h : k ∈ m.map Prod.fst) :
    (mapSet m k v).map Prod.fst = m.map Prod.fst := by
  induction m with
  | nil => simp at h
  | cons p rest ih =>
    by_cases hp : p.1 = k
    · rw [mapSet, if_pos hp]
      simp [hp]
    · rw [mapSet, if_neg hp]
      have hk : k ∈ rest.map Prod.fst := by
        rcases List.mem_map.mp h with ⟨q, hq, hqk⟩
        rcases List.mem_cons.mp hq with h1 | h1
        · exact absurd (h1 ▸ hqk) hp
        · exact List.mem_map.mpr ⟨q, h1, hqk⟩
      simp [ih hk]

lemma mapSet_keys_of_not_mem {m : SkillMap} {k : Str} (v : Skill)
    (h : k ∉ m.map Prod.fst) :
    (mapSet m k v).map Prod.fst = m.map Prod.fst ++ [k] := by
  induction m with
  | nil => simp [mapSet]
  | cons p rest ih =>
    have hp : p.1 ≠ k := by
      intro hpk
      exact h (by simp [hpk])
    rw [mapSet, if_neg hp]
    have hk : k ∉ rest.map Prod.fst := fun hk => h (by simp [hk])
    simp [ih hk]

lemma mapSet_append_of_not_mem {m : SkillMap} {k : Str} (v : Skill)
    (h : k ∉ m.map Prod.fst) : mapSet m k v = m ++ [(k, v)] := by
  induction m with
  | nil => simp [mapSet]
  | cons p rest ih =>
    have hp : p.1 ≠ k := fun hpk => h (by simp [hpk])
    rw [mapSet, if_neg hp]
    have hk : k ∉ rest.map Prod.fst := fun hk => h (by simp [hk])
    simp [ih hk]

lemma mem_mapSet_nodup {m : SkillMap} {k : Str} {v : Skill} {p : Str × Skill}
    (hnd : (m.map Prod.fst).Nodup) (hp : p ∈ mapSet m k v) :
    p = (k, v) ∨ (p ∈ m ∧ p.1 ≠ k) := by
  induction m with
  | nil =>
    rw [mapSet] at hp
    exact Or.inl (by simpa using hp)
  | cons q rest ih =>
    rcases keys_nodup_cons hnd with ⟨hq1, hq2⟩
    by_cases hq : q.1 = k
    · rw [mapSet, if_pos hq] at hp
      rcases List.mem_cons.mp hp with h1 | h1
      · exact Or.inl h1
      · refine Or.inr ⟨List.mem_cons_of_mem _ h1, ?_⟩
        intro hpk
        exact hq1 (hq ▸ hpk ▸ List.mem_map.mpr ⟨p, h1, rfl⟩)
    · rw [mapSet, if_neg hq] at hp
      rcases List.mem_cons.mp hp with h1 | h1
      · exact Or.inr ⟨h1 ▸ List.mem_cons_self _ _, h1 ▸ hq⟩
      · rcases ih hq2 h1 with h2 | h2
        · exact Or.inl h2
        · exact Or.inr ⟨List.mem_cons_of_mem _ h2.1, h2.2⟩

lemma mapSet_self {m : SkillMap} {k : Str} {v : Skill}
    (hnd : (m.map Prod.fst).Nodup) (h : (k, v) ∈ m) : mapSet m k v = m := by
  induction m with
  | nil => cases h
  | cons p rest ih =>
    rcases keys_nodup_cons hnd with ⟨hp1, hp2⟩
    rcases List.mem_cons.mp h with h1 | h1
    · rw [mapSet, if_pos (by rw [← h1]), ← h1]
    · have hp : p.1 ≠ k := by
        intro hpk
        exact hp1 (hpk ▸ List.mem_map.mpr ⟨(k, v), h1, rfl⟩)
      rw [mapSet, if_neg hp, ih hp2 h1]

lemma mapGet_append_left {l₁ l₂ : SkillMap} {k : Str} (h : k ∈ l₁.map Prod.fst) :
    mapGet (l₁ ++ l₂) k = mapGet l₁ k := by
  induction l₁ with
  | nil => simp at h
  | cons p rest ih =>
    by_cases hp : p.1 = k
    · rw [List.cons_append, mapGet, if_pos hp, mapGet, if_pos hp]
    · have hk : k ∈ rest.map Prod.fst := by
        rcases List.mem_map.mp h with ⟨q, hq, hqk⟩
        rcases List.mem_cons.mp hq with h1 | h1
        · exact absurd (h1 ▸ hqk) hp
        · exact List.mem_map.mpr ⟨q, h1, hqk⟩
      rw [List.cons_append, mapGet, if_neg hp, mapGet, if_neg hp, ih hk]

lemma mapGet_append_right {l₁ l₂ : SkillMap} {k : Str} (h : k ∉ l₁.map Prod.fst) :
    mapGet (l₁ ++ l₂) k = mapGet l₂ k := by
  induction l₁ with
  | nil => simp
  | cons p rest ih =>
    have hp : p.1 ≠ k := fun hpk => h (by simp [hpk])
    have hk : k ∉ rest.map Prod.fst := fun hk => h (by simp [hk])
    rw [List.cons_append, mapGet, if_neg hp, ih hk]

lemma mapSet_append_right {l₁ l₂ : SkillMap} {k : Str} (v : Skill)
    (h : k ∉ l₁.map Prod.fst) : mapSet (l₁ ++ l₂) k v = l₁ ++ mapSet l₂ k v := by
  induction l₁ with
  | nil => simp
  | cons p rest ih =>
    have hp : p.1 ≠ k := fun hpk => h (by simp [hpk])
    have hk : k ∉ rest.map Prod.fst := fun hk => h (by simp [hk])
    rw [List.cons_append, mapSet, if_neg hp, ih hk, List.cons_append]

lemma dedupeEvGo_length_le (es : List Evidence) (seen : List Str) (acc : List Evidence)
    (h : acc.length ≤ 3) : (dedupeEvGo es seen acc).length ≤ 3 := by
  induction es generalizing seen acc with
  | nil => simpa [dedupeEvGo] using h
  | cons e rest ih =>
    rw [dedupeEvGo]
    by_cases h3 : 3 ≤ acc.length
    · rw [if_pos h3]
      exact h
    · rw [if_neg h3]
      by_cases hseen : evKey e ∈ seen
      · rw [if_pos hseen]
        exact ih seen acc h
      · rw [if_neg hseen]
        refine ih _ _ ?_
        simp only [List.length_append, List.length_singleton]
        omega

lemma dedupeEv_length_le (es : List Evidence) : (dedupeEv es).length ≤ 3 :=
  dedupeEvGo_length_le es [] [] (by simp)

lemma entriesFor_append_single (src : List Skill) (s : Skill) (k : Str) :
    entriesFor (src ++ [s]) k =
      entriesFor src k ++ (if normName s.name = k then [s] else []) := by
  unfold entriesFor
  rw [List.filter_append]
  congr 1
  by_cases h : normName s.name = k <;> simp [h]

lemma entriesFor_eq_nil {src : List Skill} {k : Str}
    (h : ¬ ∃ s ∈ src, normName s.name = k) : entriesFor src k = [] := by
  unfold entriesFor
  rw [List.filter_eq_nil_iff]
  intro a ha
  simp only [decide_eq_true_eq]
  exact fun hk => h ⟨a, ha, hk⟩

lemma mapSpec_nil : MapSpec [] [] := by
  refine ⟨List.nodup_nil, by simp, ?_, by simp⟩
  intro k
  simp

lemma mergeIncoming_spec {src : List Skill} {m : SkillMap} (hspec : MapSpec src m)
    (s : Skill) : MapSpec (src ++ [s]) (mergeIncoming m s) := by
  obtain ⟨hnd, hkey, hiff, hent⟩ := hspec
  rcases hcur : mapGet m (normName s.name) with _ | cur
  · have hform : mergeIncoming m s =
        m ++ [(normName s.name, { s with evidence := s.evidence.take 3 })] := by
      unfold mergeIncoming
      rw [hcur]
    have hknotin : normName s.name ∉ m.map Prod.fst := (mapGet_none_iff m _).mp hcur
    rw [hform]
    refine ⟨?_, ?_, ?_, ?_⟩
    · rw [List.map_append]
      rw [List.nodup_append]
      refine ⟨hnd, by simp, ?_⟩
      intro a ha hb
      have : a = normName s.name := by simpa using hb
      exact hknotin (this ▸ ha)
    · intro p hp
      rcases List.mem_append.mp hp with h | h
      · exact hkey p h
      · have hpe : p = (normName s.name, { s with evidence := s.evidence.take 3 }) := by
          simpa using h
      
        subst hpe
        rfl
    · intro k'
      rw [List.map_append]
      simp only [List.mem_append, List.map_cons, List.map_nil, List.mem_singleton]
      constructor
      · rintro (h | h)
        · rcases (hiff k').mp h with ⟨t, ht, htk⟩
          exact ⟨t, Or.inl ht, htk⟩
        · exact ⟨s, Or.inr rfl, h.symm⟩
      · rintro ⟨t, ht, htk⟩
        rcases ht with h | h
        · exact Or.inl ((hiff k').mpr ⟨t, h, htk⟩)
        · subst h
          exact Or.inr htk.symm
    · intro p hp
      rcases List.mem_append.mp hp with h | h
      · have hpne : normName s.name ≠ p.1 := by
          intro he
          exact hknotin (he ▸ List.mem_map.mpr ⟨p, h, rfl⟩)
        rw [entriesFor_append_single, if_neg hpne, List.append_nil]
        exact hent p h
      · have hpe : p = (normName s.name, { s with evidence := s.evidence.take 3 }) := by
          simpa using h
        subst hpe
        have hnil : entriesFor src (normName s.name) = [] :=
          entriesFor_eq_nil (fun ⟨t, ht, htk⟩ => hknotin ((hiff _).mpr ⟨t, ht, htk⟩))
        rw [entriesFor_append_single, hnil, if_pos rfl, List.nil_append]
        refine ⟨⟨⟨s, by simp, rfl⟩, ?_⟩, ?_⟩
        · intro t ht
          have : t = s := by simpa using ht
          subst this
          exact le_refl _
        · exact List.length_take_le 3 s.evidence
  · have hform : mergeIncoming m s = mapSet m (normName s.name)
        { cur with
          level := if levelRank cur.level < levelRank s.level then s.level else cur.level,
          evidence := dedupeEv (cur.evidence ++ s.evidence) } := by
      unfold mergeIncoming
      rw [hcur]
    have hmem : (normName s.name, cur) ∈ m := mapGet_some_mem hcur
    have hkin : normName s.name ∈ m.map Prod.fst := List.mem_map.mpr ⟨_, hmem, rfl⟩
    rw [hform]
    refine ⟨?_, ?_, ?_, ?_⟩
    · rw [mapSet_keys_of_mem _ hkin]
      exact hnd
    · intro p hp
      rcases mem_mapSet_nodup hnd hp with h | ⟨h, _⟩
      · subst h
        have h1 := hkey _ hmem
        simpa using h1
      · exact hkey p h
    · intro k'
      rw [mapSet_keys_of_mem _ hkin]
      constructor
      · intro h
        rcases (hiff k').mp h with ⟨t, ht, htk⟩
        exact ⟨t, List.mem_append.mpr (Or.inl ht), htk⟩
      · rintro ⟨t, ht, htk⟩
        rcases List.mem_append.mp ht with h | h
        · exact (hiff k').mpr ⟨t, h, htk⟩
        · have : t = s := by simpa using h
          subst this
          exact htk ▸ hkin
    · intro p hp
      rcases mem_mapSet_nodup hnd hp with h | ⟨h, hne⟩
      · subst h
        dsimp only
        have hentm := hent _ hmem
        dsimp only at hentm
        rcases hentm with ⟨⟨⟨t0, ht0, ht0l⟩, hmax⟩, _⟩
        constructor
        · rw [entriesFor_append_single, if_pos rfl]
          constructor
          · by_cases hlt : levelRank cur.level < levelRank s.level
            · refine ⟨s, List.mem_append.mpr (Or.inr (by simp)), ?_⟩
              simp [hlt]
            · refine ⟨t0, List.mem_append.mpr (Or.inl ht0), ?_⟩
              simp [hlt, ht0l]
          · intro t ht
            rcases List.mem_append.mp ht with h1 | h1
            · have hrank := hmax t h1
              by_cases hlt : levelRank cur.level < levelRank s.level
              · simp only [hlt, if_true]
                omega
              · simp only [hlt, if_false]
                exact hrank
            · have : t = s := by simpa using h1
              subst this
              by_cases hlt : levelRank cur.level < levelRank t.level
              · simp [hlt]
              · simp only [hlt, if_false]
                omega
        · exact dedupeEv_length_le _
      · rw [entriesFor_append_single, if_neg (fun he => hne he.symm), List.append_nil]
        exact hent p h

lemma foldl_mergeIncoming_spec (inc : List Skill) :
    ∀ (src : List Skill) (m : SkillMap), MapSpec src m →
      MapSpec (src ++ inc) (inc.foldl mergeIncoming m) := by
  induction inc with
  | nil =>
    intro src m h
    simpa using h
  | cons s rest ih =>
    intro src m h
    rw [List.foldl_cons]
    have h2 := ih (src ++ [s]) (mergeIncoming m s) (mergeIncoming_spec h s)
    rw [List.append_assoc] at h2
    simpa using h2

lemma baseMap_values_aux (m : SkillMap) :
    ∀ acc : SkillMap,
      ((acc ++ m).map Prod.fst).Nodup →
      (∀ p ∈ m, p.1 = normName p.2.name) →
      (∀ p ∈ m, p.2.evidence.length ≤ 3) →
      (m.map Prod.snd).foldl
        (fun a s => mapSet a (normName s.name) { s with evidence := s.evidence.take 3 }) acc
        = acc ++ m := by
  induction m with
  | nil =>
    intro acc _ _ _
    simp
  | cons p rest ih =>
    intro acc hnd hkey hev
    rw [List.map_cons, List.foldl_cons]
    have hk : normName p.2.name = p.1 := (hkey p (List.mem_cons_self _ _)).symm
    have hval : { p.2 with evidence := p.2.evidence.take 3 } = p.2 := by
      rw [List.take_of_length_le (hev p (List.mem_cons_self _ _))]
    have hknotin : p.1 ∉ acc.map Prod.fst := by
      rw [List.map_append] at hnd
      rcases List.nodup_append.mp hnd with ⟨_, _, hdisj⟩
      intro hin
      exact hdisj hin (by simp)
    rw [hk, hval, mapSet_append_of_not_mem _ hknotin]
    have hnd2 : (((acc ++ [(p.1, p.2)]) ++ rest).map Prod.fst).Nodup := by
      have : (acc ++ [(p.1, p.2)]) ++ rest = acc ++ p :: rest := by
        rw [List.append_assoc, List.singleton_append]
      rw [this]
      exact hnd
    have := ih (acc ++ [(p.1, p.2)]) hnd2
      (fun q hq => hkey q (List.mem_cons_of_mem _ hq))
      (fun q hq => hev q (List.mem_cons_of_mem _ hq))
    rw [this, List.append_assoc, List.singleton_append]

lemma baseMap_values {m : SkillMap}
    (hnd : (m.map Prod.fst).Nodup)
    (hkey : ∀ p ∈ m, p.1 = normName p.2.name)
    (hev : ∀ p ∈ m, p.2.evidence.length ≤ 3) :
    baseMap (m.map Prod.snd) = m := by
  unfold baseMap
  have h := baseMap_values_aux m [] (by simpa using hnd) hkey hev
  simpa using h

lemma mapSpec_length_le {src : List Skill} {m : SkillMap} (h : MapSpec src m) :
    m.length ≤ distinctNames src := by
  obtain ⟨hnd, _, hiff, _⟩ := h
  have hsub : (m.map Prod.fst) ⊆ (src.map (fun s => normName s.name)).dedup := by
    intro k hk
    rcases (hiff k).mp hk with ⟨t, ht, htk⟩
    rw [List.mem_dedup]
    exact List.mem_map.mpr ⟨t, ht, htk⟩
  have hsp := hnd.subperm hsub
  calc m.length = (m.map Prod.fst).length := (List.length_map _ _).symm
    _ ≤ _ := hsp.length_le

lemma values_filter_count {m : SkillMap} {nm : Str}
    (hnd : (m.map Prod.fst).Nodup)
    (hkey : ∀ p ∈ m, p.1 = normName p.2.name)
    (hmem : nm ∈ m.map Prod.fst) :
    ((m.map Prod.snd).filter (fun t => decide (normName t.name = nm))).length = 1 := by
  induction m with
  | nil => simp at hmem
  | cons p rest ih =>
    rcases keys_nodup_cons hnd with ⟨hp1, hp2⟩
    rw [List.map_cons, List.filter_cons]
    by_cases hk : p.1 = nm
    · have hname : normName p.2.name = nm := by
        rw [← hkey p (List.mem_cons_self _ _)]
        exact hk
      rw [if_pos (by simpa using hname)]
      have hrest : (rest.map Prod.snd).filter (fun t => decide (normName t.name = nm)) = [] := by
        rw [List.filter_eq_nil_iff]
        intro t ht
        rcases List.mem_map.mp ht with ⟨q, hq, hqt⟩
        simp only [decide_eq_true_eq]
        intro hcontra
        apply hp1
        rw [hk]
        subst hqt
        rw [← hcontra, ← hkey q (List.mem_cons_of_mem _ hq)]
        exact List.mem_map.mpr ⟨q, hq, rfl⟩
      rw [hrest]
      simp
    · have hname : normName p.2.name ≠ nm := by
        rw [← hkey p (List.mem_cons_self _ _)]
        exact hk
      rw [if_neg (by simpa using hname)]
      have hmem2 : nm ∈ rest.map Prod.fst := by
        rcases List.mem_map.mp hmem with ⟨q, hq, hqk⟩
        rcases List.mem_cons.mp hq with h1 | h1
        · exact absurd (h1 ▸ hqk) hk
        · exact List.mem_map.mpr ⟨q, h1, hqk⟩
      exact ih hp2 (fun q hq => hkey q (List.mem_cons_of_mem _ hq)) hmem2

lemma distinctNames_mono_left (A B : List Skill) :
    distinctNames A ≤ distinctNames (A ++ B) := by
  unfold distinctNames
  have hsub : (A.map (fun s => normName s.name)).dedup ⊆
      ((A ++ B).map (fun s => normName s.name)).dedup := by
    intro k hk
    rw [List.mem_dedup] at hk
    rw [List.mem_dedup, List.map_append, List.mem_append]
    exact Or.inl hk
  exact ((List.nodup_dedup _).subperm hsub).length_le

lemma mergeSkills_spec (A B : List Skill) (hcard : distinctNames (A ++ B) ≤ 120) :
    ∃ M : SkillMap, MapSpec (A ++ B) M ∧
      mergeSkills (mergeSkills [] A) B = M.map Prod.snd := by
  have hA : MapSpec A (A.foldl mergeIncoming []) := by
    have h := foldl_mergeIncoming_spec A [] [] mapSpec_nil
    simpa using h
  have hMAlen : (A.foldl mergeIncoming []).length ≤ 120 :=
    le_trans (le_trans (mapSpec_length_le hA) (distinctNames_mono_left A B)) hcard
  obtain ⟨hnd, hkey, hiff, hent⟩ := hA
  have hbase : baseMap ((A.foldl mergeIncoming []).map Prod.snd) = A.foldl mergeIncoming [] :=
    baseMap_values hnd hkey (fun p hp => (hent p hp).2)
  have houter : MapSpec (A ++ B) (B.foldl mergeIncoming (A.foldl mergeIncoming [])) :=
    foldl_mergeIncoming_spec B A _ ⟨hnd, hkey, hiff, hent⟩
  refine ⟨B.foldl mergeIncoming (A.foldl mergeIncoming []), houter, ?_⟩
  unfold mergeSkills
  rw [show baseMap [] = ([] : SkillMap) from rfl,
    List.take_of_length_le
      (show ((A.foldl mergeIncoming []).map Prod.snd).length ≤ 120 by simpa using hMAlen),
    hbase]
  refine List.take_of_length_le ?_
  have hlen := mapSpec_length_le houter
  simp only [List.length_map]
  omega

set_option maxRecDepth 20000 in
set_option maxHeartbeats 2000000 in
/-- C2 counterexample: with 121 skills of distinct names the merged output
is capped at 120 skills, so one distinct input name (the last) has no
corresponding output skill. -/
theorem C2_counterexample :
    (∃ s ∈ ((List.range 121).map
        (fun n => (⟨Nat.toDigits 10 n, beginnerStr, []⟩ : Skill))) ++ ([] : List Skill),
      normName s.name = normName (Nat.toDigits 10 120)) ∧
    ∀ t ∈ mergeSkills (mergeSkills []
        ((List.range 121).map (fun n => (⟨Nat.toDigits 10 n, beginnerStr, []⟩ : Skill)))) [],
      normName t.name ≠ normName (Nat.toDigits 10 120) := by
  constructor
  · refine ⟨⟨Nat.toDigits 10 120, beginnerStr, []⟩, ?_, rfl⟩
    rw [List.mem_append]
    exact Or.inl (List.mem_map.mpr ⟨120, by decide, rfl⟩)
  · decide

/-- C2 amended: for all skill lists A and B with at most 120 distinct
normalised names in total, merge(merge([], A), B) contains exactly one
skill for every distinct normalised (trimmed, lower-cased) name occurring
in A or B and no others; each output skill's level occurs among the entries
of that name and ranks at least as high as every such entry (so it is never
lower than a previously merged level); and each evidence list has at most
3 entries.  (Without the bound, the output is capped at 120 skills and
later names are dropped.) -/
theorem C2_merge_names_levels (A B : List Skill)
    (hcard : distinctNames (A ++ B) ≤ 120) :
    (∀ nm : Str, (∃ s ∈ A ++ B, normName s.name = nm) →
      ((mergeSkills (mergeSkills [] A) B).filter
        (fun t => decide (normName t.name = nm))).length = 1) ∧
    (∀ t ∈ mergeSkills (mergeSkills [] A) B,
      (∃ s ∈ A ++ B, normName s.name = normName t.name) ∧
      levelIsMax (entriesFor (A ++ B) (normName t.name)) t.level ∧
      t.evidence.length ≤ 3) := by
  obtain ⟨M, hspec, heq⟩ := mergeSkills_spec A B hcard
  obtain ⟨hnd, hkey, hiff, hent⟩ := hspec
  rw [heq]
  constructor
  · intro nm hnm
    exact values_filter_count hnd hkey ((hiff nm).mpr hnm)
  · intro t ht
    rcases List.mem_map.mp ht with ⟨p, hp, hpt⟩
    have hk := hkey p hp
    subst hpt
    rcases hent p hp with ⟨hlmax, hev⟩
    refine ⟨?_, ?_, hev⟩
    · exact (hiff (normName p.2.name)).mp (hk ▸ List.mem_map.mpr ⟨p, hp, rfl⟩)
    · rw [← hk]
      exact hlmax

/-- C2 witness: merging two same-named skills of levels beginner and
advanced yields one skill at the maximal level with bounded evidence. -/
theorem C2_witness :
    distinctNames ([⟨['x'], beginnerStr, []⟩] ++ [⟨['x'], advancedStr, []⟩]) ≤ 120 ∧
    ∀ t ∈ mergeSkills (mergeSkills [] [⟨['x'], beginnerStr, []⟩]) [⟨['x'], advancedStr, []⟩],
      levelIsMax (entriesFor ([⟨['x'], beginnerStr, []⟩] ++ [⟨['x'], advancedStr, []⟩])
        (normName t.name)) t.level ∧ t.evidence.length ≤ 3 := by
  refine ⟨by decide, ?_⟩
  intro t ht
  exact ((C2_merge_names_levels [⟨['x'], beginnerStr, []⟩] [⟨['x'], advancedStr, []⟩]
    (by decide)).2 t ht).2

lemma truncEv_eq_self {e : Evidence} (h : e.snippet.length ≤ 240) : truncEv e = e := by
  unfold truncEv
  rw [List.take_of_length_le h]

lemma truncEv_idem (e : Evidence) : truncEv (truncEv e) = truncEv e := by
  unfold truncEv
  rw [List.take_take]
  simp

lemma evKey_truncEv (e : Evidence) : evKey (truncEv e) = evKey e := by
  unfold evKey truncEv
  rw [List.take_take]
  simp

lemma dedupeEvGo_nodup_keys (es : List Evidence) :
    ∀ (seen : List Str) (acc : List Evidence),
      ((acc.map evKey).Nodup) → (∀ kk ∈ acc.map evKey, kk ∈ seen) →
      ((dedupeEvGo es seen acc).map evKey).Nodup := by
  induction es with
  | nil =>
    intro seen acc h _
    simpa [dedupeEvGo] using h
  | cons e rest ih =>
    intro seen acc hnd hsub
    rw [dedupeEvGo]
    by_cases hcap : 3 ≤ acc.length
    · rw [if_pos hcap]
      exact hnd
    · rw [if_neg hcap]
      by_cases hs : evKey e ∈ seen
      · rw [if_pos hs]
        exact ih seen acc hnd hsub
      · rw [if_neg hs]
        refine ih _ _ ?_ ?_
        · rw [List.map_append, List.map_cons, List.map_nil, evKey_truncEv]
          rw [List.nodup_append]
          refine ⟨hnd, by simp, ?_⟩
          intro a ha hb
          have hae : a = evKey e := by simpa using hb
          exact hs (hae ▸ hsub a ha)
        · intro kk hkk
          rw [List.map_append, List.map_cons, List.map_nil, evKey_truncEv] at hkk
          rcases List.mem_append.mp hkk with h1 | h1
          · exact List.mem_cons_of_mem _ (hsub kk h1)
          · have : kk = evKey e := by simpa using h1
            exact this ▸ List.mem_cons_self _ _

lemma dedupeEvGo_trunc (es : List Evidence) :
    ∀ (seen : List Str) (acc : List Evidence),
      (∀ e ∈ acc, truncEv e = e) →
      ∀ e ∈ dedupeEvGo es seen acc, truncEv e = e := by
  induction es with
  | nil =>
    intro seen acc h
    simpa [dedupeEvGo] using h
  | cons e rest ih =>
    intro seen acc htr
    rw [dedupeEvGo]
    by_cases hcap : 3 ≤ acc.length
    · rw [if_pos hcap]
      exact htr
    · rw [if_neg hcap]
      by_cases hs : evKey e ∈ seen
      · rw [if_pos hs]
        exact ih seen acc htr
      · rw [if_neg hs]
        refine ih _ _ ?_
        intro x hx
        rcases List.mem_append.mp hx with h1 | h1
        · exact htr x h1
        · have : x = truncEv e := by simpa using h1
          exact this ▸ truncEv_idem e

lemma dedupeEvGo_stop (es : List Evidence) (seen : List Str) (acc : List Evidence)
    (h : 3 ≤ acc.length) : dedupeEvGo es seen acc = acc := by
  cases es with
  | nil => rfl
  | cons e rest => rw [dedupeEvGo, if_pos h]

lemma dedupeEvGo_skip_all (es : List Evidence) :
    ∀ (seen : List Str) (acc : List Evidence),
      (∀ e ∈ es, evKey e ∈ seen) → dedupeEvGo es seen acc = acc := by
  induction es with
  | nil => intro seen acc _; rfl
  | cons e rest ih =>
    intro seen acc h
    rw [dedupeEvGo]
    by_cases hcap : 3 ≤ acc.length
    · rw [if_pos hcap]
    · rw [if_neg hcap, if_pos (h e (List.mem_cons_self _ _))]
      exact ih seen acc (fun x hx => h x (List.mem_cons_of_mem _ hx))

lemma dedupeEvGo_phase1 (E : List Evidence) :
    ∀ (rest : List Evidence) (seen : List Str) (acc : List Evidence),
      acc.length + E.length ≤ 3 →
      (((acc ++ E).map evKey).Nodup) →
      (∀ e ∈ E, truncEv e = e) →
      (∀ kk, kk ∈ seen ↔ kk ∈ acc.map evKey) →
      ∃ seen2, (∀ kk, kk ∈ seen2 ↔ kk ∈ (acc ++ E).map evKey) ∧
        dedupeEvGo (E ++ rest) seen acc = dedupeEvGo rest seen2 (acc ++ E) := by
  induction E with
  | nil =>
    intro rest seen acc _ _ _ hseen
    exact ⟨seen, by simpa using hseen, by simp⟩
  | cons e E2 ih =>
    intro rest seen acc hlen hnd htr hseen
    have hcap : ¬ 3 ≤ acc.length := by
      simp only [List.length_cons] at hlen
      omega
    have hkE : evKey e ∉ acc.map evKey := by
      rw [List.map_append] at hnd
      rcases List.nodup_append.mp hnd with ⟨_, _, hdisj⟩
      intro hin
      exact hdisj hin (by simp)
    have hnotseen : evKey e ∉ seen := fun hs => hkE ((hseen _).mp hs)
    rw [List.cons_append, dedupeEvGo, if_neg hcap, if_neg hnotseen]
    rw [htr e (List.mem_cons_self _ _)]
    have hassoc : (acc ++ [e]) ++ E2 = acc ++ e :: E2 := by
      rw [List.append_assoc, List.singleton_append]
    obtain ⟨seen2, hs2, heq⟩ := ih rest (evKey e :: seen) (acc ++ [e])
      (by simp at hlen ⊢; omega)
      (by rw [hassoc]; exact hnd)
      (fun x hx => htr x (List.mem_cons_of_mem _ hx))
      (by
        intro kk
        simp only [List.mem_cons, List.map_append, List.mem_append, List.map_cons,
          List.map_nil, List.mem_singleton, hseen kk]
        tauto)
    refine ⟨seen2, ?_, ?_⟩
    · intro kk
      rw [hs2 kk, hassoc]
    · rw [heq, hassoc]

lemma dedupe_stable {E inc : List Evidence} (hg : EvGood E)
    (h : E.length = 3 ∨ ∀ e ∈ inc, evKey e ∈ E.map evKey) :
    dedupeEv (E ++ inc) = E := by
  obtain ⟨hnd, htr, hlen⟩ := hg
  unfold dedupeEv
  obtain ⟨seen2, hs2, heq⟩ := dedupeEvGo_phase1 E inc [] []
    (by simpa using hlen) (by simpa using hnd) htr (by simp)
  rw [heq]
  simp only [List.nil_append] at hs2 ⊢
  rcases h with h3 | hsub
  · exact dedupeEvGo_stop inc seen2 E (by omega)
  · exact dedupeEvGo_skip_all inc seen2 E (fun e he => (hs2 _).mpr (hsub e he))

lemma dedupeEvGo_small (es : List Evidence) :
    ∀ (seen : List Str) (acc : List Evidence),
      (∀ kk, kk ∈ seen ↔ kk ∈ acc.map evKey) →
      (dedupeEvGo es seen acc).length < 3 →
      (∀ e ∈ es, evKey e ∈ (dedupeEvGo es seen acc).map evKey) ∧
      (∀ kk ∈ acc.map evKey, kk ∈ (dedupeEvGo es seen acc).map evKey) := by
  induction es with
  | nil =>
    intro seen acc _ _
    exact ⟨by simp, fun kk hkk => by simpa [dedupeEvGo] using hkk⟩
  | cons e rest ih =>
    intro seen acc hseen hsmall
    rw [dedupeEvGo] at hsmall ⊢
    by_cases hcap : 3 ≤ acc.length
    · rw [if_pos hcap] at hsmall
      omega
    · rw [if_neg hcap] at hsmall ⊢
      by_cases hs : evKey e ∈ seen
      · rw [if_pos hs] at hsmall ⊢
        obtain ⟨h1, h2⟩ := ih seen acc hseen hsmall
        refine ⟨?_, h2⟩
        intro x hx
        rcases List.mem_cons.mp hx with hxe | hxe
        · exact hxe ▸ h2 _ ((hseen _).mp hs)
        · exact h1 x hxe
      · rw [if_neg hs] at hsmall ⊢
        have hseen2 : ∀ kk, kk ∈ evKey e :: seen ↔ kk ∈ (acc ++ [truncEv e]).map evKey := by
          intro kk
          simp only [List.mem_cons, List.map_append, List.mem_append, List.map_cons,
            List.map_nil, List.mem_singleton, evKey_truncEv, hseen kk]
          tauto
        obtain ⟨h1, h2⟩ := ih _ _ hseen2 hsmall
        refine ⟨?_, ?_⟩
        · intro x hx
          rcases List.mem_cons.mp hx with hxe | hxe
          · subst hxe
            refine h2 _ ?_
            rw [List.map_append, List.map_cons, List.map_nil, evKey_truncEv]
            simp
          · exact h1 x hxe
        · intro kk hkk
          refine h2 kk ?_
          rw [List.map_append]
          exact List.mem_append.mpr (Or.inl hkk)

lemma dedupe_small {es : List Evidence} (h : (dedupeEv es).length < 3) :
    ∀ e ∈ es, evKey e ∈ (dedupeEv es).map evKey :=
  (dedupeEvGo_small es [] [] (by simp) h).1

lemma evGood_take3 {ev : List Evidence}
    (hnd : (ev.map evKey).Nodup) (htr : ∀ e ∈ ev, truncEv e = e) :
    EvGood (ev.take 3) := by
  refine ⟨?_, ?_, List.length_take_le 3 ev⟩
  · rw [List.map_take]
    exact List.Nodup.sublist (List.take_sublist 3 _) hnd
  · intro e he
    exact htr e (List.mem_of_mem_take he)

lemma evGood_dedupeEv (es : List Evidence) : EvGood (dedupeEv es) :=
  ⟨dedupeEvGo_nodup_keys es [] [] (by simp) (by simp),
   dedupeEvGo_trunc es [] [] (by simp),
   dedupeEv_length_le es⟩

lemma mergeIncoming_stable {src : List Skill} {m : SkillMap} {s : Skill}
    (hnd : (m.map Prod.fst).Nodup)
    (hiff : ∀ k : Str, k ∈ m.map Prod.fst ↔ ∃ t ∈ src, normName t.name = k)
    (hstab : ∀ p ∈ m, StableEntry src p)
    (hs : ((s.evidence.map evKey).Nodup) ∧ ∀ e ∈ s.evidence, truncEv e = e) :
    ∀ p ∈ mergeIncoming m s, StableEntry (src ++ [s]) p := by
  intro p hp
  rcases hcur : mapGet m (normName s.name) with _ | cur
  · have hform : mergeIncoming m s =
        m ++ [(normName s.name, { s with evidence := s.evidence.take 3 })] := by
      unfold mergeIncoming
      rw [hcur]
    have hknotin : normName s.name ∉ m.map Prod.fst := (mapGet_none_iff m _).mp hcur
    rw [hform] at hp
    rcases List.mem_append.mp hp with h | h
    · have hpne : normName s.name ≠ p.1 := by
        intro he
        exact hknotin (he ▸ List.mem_map.mpr ⟨p, h, rfl⟩)
      obtain ⟨hlev, hev, hdisj⟩ := hstab p h
      refine ⟨?_, hev, ?_⟩
      · rw [entriesFor_append_single, if_neg hpne, List.append_nil]
        exact hlev
      · rw [entriesFor_append_single, if_neg hpne, List.append_nil]
        exact hdisj
    · have hpe : p = (normName s.name, { s with evidence := s.evidence.take 3 }) := by
        simpa using h
      subst hpe
      have hnil : entriesFor src (normName s.name) = [] :=
        entriesFor_eq_nil (fun ⟨t, ht, htk⟩ => hknotin ((hiff _).mpr ⟨t, ht, htk⟩))
      refine ⟨?_, evGood_take3 hs.1 hs.2, ?_⟩
      · rw [entriesFor_append_single, hnil, if_pos rfl, List.nil_append]
        intro t ht
        have : t = s := by simpa using ht
        subst this
        exact le_refl _
      · rw [entriesFor_append_single, hnil, if_pos rfl, List.nil_append]
        by_cases hle : s.evidence.length ≤ 3
        · refine Or.inr ?_
          intro t ht e he
          have hts : t = s := by simpa using ht
          subst hts
          rw [List.take_of_length_le hle]
          exact List.mem_map.mpr ⟨e, he, rfl⟩
        · refine Or.inl ?_
          rw [List.length_take]
          omega
  · have hform : mergeIncoming m s = mapSet m (normName s.name)
        { cur with
          level := if levelRank cur.level < levelRank s.level then s.level else cur.level,
          evidence := dedupeEv (cur.evidence ++ s.evidence) } := by
      unfold mergeIncoming
      rw [hcur]
    have hmem : (normName s.name, cur) ∈ m := mapGet_some_mem hcur
    rw [hform] at hp
    rcases mem_mapSet_nodup hnd hp with h | ⟨h, hne⟩
    · subst h
      have hstabc := hstab _ hmem
      obtain ⟨hlev, hev, hdisj⟩ := hstabc
      dsimp only at hlev hev hdisj
      have hstable3 : cur.evidence.length = 3 →
          dedupeEv (cur.evidence ++ s.evidence) = cur.evidence :=
        fun h3 => dedupe_stable hev (Or.inl h3)
      refine ⟨?_, evGood_dedupeEv _, ?_⟩
      · rw [entriesFor_append_single, if_pos rfl]
        intro t ht
        dsimp only
        rcases List.mem_append.mp ht with h1 | h1
        · have hrank := hlev t h1
          by_cases hlt : levelRank cur.level < levelRank s.level
          · rw [if_pos hlt]
            omega
          · rw [if_neg hlt]
            exact hrank
        · have : t = s := by simpa using h1
          subst this
          by_cases hlt : levelRank cur.level < levelRank t.level
          · rw [if_pos hlt]
          · rw [if_neg hlt]
            omega
      · by_cases h3 : (dedupeEv (cur.evidence ++ s.evidence)).length = 3
        · exact Or.inl h3
        · refine Or.inr ?_
          have hsmall : (dedupeEv (cur.evidence ++ s.evidence)).length < 3 := by
            have := dedupeEv_length_le (cur.evidence ++ s.evidence)
            omega
          have hall := dedupe_small hsmall
          have hcursmall : cur.evidence.length ≠ 3 := by
            intro hc3
            rw [hstable3 hc3] at h3
            exact h3 hc3
          have hcurdisj : ∀ t ∈ entriesFor src (normName s.name),
              ∀ e ∈ t.evidence, evKey e ∈ cur.evidence.map evKey := by
            rcases hdisj with hd | hd
            · exact absurd hd hcursmall
            · exact hd
          rw [entriesFor_append_single, if_pos rfl]
          intro t ht e he
          rcases List.mem_append.mp ht with h1 | h1
          · rcases List.mem_map.mp (hcurdisj t h1 e he) with ⟨e2, he2, hke⟩
            rw [← hke]
            exact hall e2 (List.mem_append.mpr (Or.inl he2))
          · have : t = s := by simpa using h1
            subst this
            exact hall e (List.mem_append.mpr (Or.inr he))
    · obtain ⟨hlev, hev, hdisj⟩ := hstab p h
      refine ⟨?_, hev, ?_⟩
      · rw [entriesFor_append_single, if_neg (fun he2 => hne he2.symm), List.append_nil]
        exact hlev
      · rw [entriesFor_append_single, if_neg (fun he2 => hne he2.symm), List.append_nil]
        exact hdisj

lemma foldl_mergeIncoming_stable (inc : List Skill) :
    ∀ (src : List Skill) (m : SkillMap),
      MapSpec src m →
      (∀ p ∈ m, StableEntry src p) →
      (∀ s ∈ inc, ((s.evidence.map evKey).Nodup) ∧ ∀ e ∈ s.evidence, truncEv e = e) →
      ∀ p ∈ inc.foldl mergeIncoming m, StableEntry (src ++ inc) p := by
  induction inc with
  | nil =>
    intro src m _ hstab _
    simpa using hstab
  | cons s rest ih =>
    intro src m hspec hstab hgood
    rw [List.foldl_cons]
    have hstab2 : ∀ p ∈ mergeIncoming m s, StableEntry (src ++ [s]) p :=
      mergeIncoming_stable hspec.1 hspec.2.2.1 hstab (hgood s (List.mem_cons_self _ _))
    have h2 := ih (src ++ [s]) (mergeIncoming m s) (mergeIncoming_spec hspec s) hstab2
      (fun t ht => hgood t (List.mem_cons_of_mem _ ht))
    rw [List.append_assoc] at h2
    simpa using h2

lemma refold_aux (A2 : List Skill) :
    ∀ (A : List Skill) (MA : SkillMap) (tail : SkillMap),
      (∀ s ∈ A2, s ∈ A) →
      (∀ p ∈ MA.take 120, StableEntry A p) →
      (((MA.take 120 ++ tail).map Prod.fst).Nodup) →
      (∀ p ∈ MA.take 120 ++ tail, p.1 = normName p.2.name) →
      (∀ s ∈ A, normName s.name ∈ MA.map Prod.fst) →
      (∀ p ∈ tail, p.1 ∈ MA.map Prod.fst) →
      ∃ tail2, A2.foldl mergeIncoming (MA.take 120 ++ tail) = MA.take 120 ++ tail2 ∧
        (((MA.take 120 ++ tail2).map Prod.fst).Nodup) ∧
        (∀ p ∈ tail2, p.1 ∈ MA.map Prod.fst) := by
  induction A2 with
  | nil =>
    intro A MA tail _ _ h1 _ _ h3
    exact ⟨tail, rfl, h1, h3⟩
  | cons s rest ih =>
    intro A MA tail hsub hstab hnd hkey hall htail
    rw [List.foldl_cons]
    by_cases hk1 : normName s.name ∈ (MA.take 120).map Prod.fst
    · have hget1 : mapGet (MA.take 120 ++ tail) (normName s.name) =
          mapGet (MA.take 120) (normName s.name) := mapGet_append_left hk1
      rcases hgetc : mapGet (MA.take 120) (normName s.name) with _ | cur
      · exact absurd hk1 ((mapGet_none_iff _ _).mp hgetc)
      · have hmemc : (normName s.name, cur) ∈ MA.take 120 := mapGet_some_mem hgetc
        obtain ⟨hlev, hev, hdisj⟩ := hstab _ hmemc
        dsimp only at hlev hev hdisj
        have hsA : s ∈ A := hsub s (List.mem_cons_self _ _)
        have hsent : s ∈ entriesFor A (normName s.name) :=
          List.mem_filter.mpr ⟨hsA, by simp⟩
        have hlvl : (if levelRank cur.level < levelRank s.level then s.level else cur.level)
            = cur.level := by
          rw [if_neg]
          have := hlev s hsent
          omega
        have hevd : dedupeEv (cur.evidence ++ s.evidence) = cur.evidence := by
          refine dedupe_stable hev ?_
          rcases hdisj with hd | hd
          · exact Or.inl hd
          · exact Or.inr (fun e he => hd s hsent e he)
        have hform : mergeIncoming (MA.take 120 ++ tail) s =
            mapSet (MA.take 120 ++ tail) (normName s.name)
              { cur with
                level := if levelRank cur.level < levelRank s.level then s.level else cur.level,
                evidence := dedupeEv (cur.evidence ++ s.evidence) } := by
          unfold mergeIncoming
          rw [hget1, hgetc]
        have hstep : mergeIncoming (MA.take 120 ++ tail) s = MA.take 120 ++ tail := by
          rw [hform, hlvl, hevd]
          exact mapSet_self hnd (List.mem_append.mpr (Or.inl hmemc))
        rw [hstep]
        exact ih A MA tail (fun t ht => hsub t (List.mem_cons_of_mem _ ht))
          hstab hnd hkey hall htail
    · rcases hget : mapGet (MA.take 120 ++ tail) (normName s.name) with _ | cur
      · have hknotin : normName s.name ∉ (MA.take 120 ++ tail).map Prod.fst :=
          (mapGet_none_iff _ _).mp hget
        have hstep : mergeIncoming (MA.take 120 ++ tail) s =
            MA.take 120 ++ (tail ++
              [(normName s.name, { s with evidence := s.evidence.take 3 })]) := by
          unfold mergeIncoming
          rw [hget, List.append_assoc]
        rw [hstep]
        refine ih A MA _ (fun t ht => hsub t (List.mem_cons_of_mem _ ht)) hstab ?_ ?_ hall ?_
        · rw [← List.append_assoc, List.map_append, List.nodup_append]
          refine ⟨hnd, by simp, ?_⟩
          intro a ha hb
          have hae : a = normName s.name := by simpa using hb
          exact hknotin (hae ▸ ha)
        · intro p hp
          rw [← List.append_assoc] at hp
          rcases List.mem_append.mp hp with h1 | h1
          · exact hkey p h1
          · have hpe : p = (normName s.name, { s with evidence := s.evidence.take 3 }) := by
              simpa using h1
            subst hpe
            rfl
        · intro p hp
          rcases List.mem_append.mp hp with h1 | h1
          · exact htail p h1
          · have hpe : p = (normName s.name, { s with evidence := s.evidence.take 3 }) := by
              simpa using h1
            subst hpe
            exact hall s (hsub s (List.mem_cons_self _ _))
      · have hmemc : (normName s.name, cur) ∈ MA.take 120 ++ tail := mapGet_some_mem hget
        have hmemtail : (normName s.name, cur) ∈ tail := by
          rcases List.mem_append.mp hmemc with h1 | h1
          · exact absurd (List.mem_map.mpr ⟨_, h1, rfl⟩) hk1
          · exact h1
        have hndtail : (tail.map Prod.fst).Nodup := by
          rw [List.map_append] at hnd
          exact (List.nodup_append.mp hnd).2.1
        have hstep : mergeIncoming (MA.take 120 ++ tail) s =
            MA.take 120 ++ mapSet tail (normName s.name)
              { cur with
                level := if levelRank cur.level < levelRank s.level then s.level else cur.level,
                evidence := dedupeEv (cur.evidence ++ s.evidence) } := by
          unfold mergeIncoming
          rw [hget]
          dsimp only
          rw [mapSet_append_right _ hk1]
        rw [hstep]
        have hkeys : (mapSet tail (normName s.name)
            { cur with
              level := if levelRank cur.level < levelRank s.level then s.level else cur.level,
              evidence := dedupeEv (cur.evidence ++ s.evidence) }).map Prod.fst
            = tail.map Prod.fst :=
          mapSet_keys_of_mem _ (List.mem_map.mpr ⟨_, hmemtail, rfl⟩)
        refine ih A MA _ (fun t ht => hsub t (List.mem_cons_of_mem _ ht)) hstab ?_ ?_ hall ?_
        · rw [List.map_append, hkeys, ← List.map_append]
          exact hnd
        · intro p hp
          rcases List.mem_append.mp hp with h1 | h1
          · exact hkey p (List.mem_append.mpr (Or.inl h1))
          · rcases mem_mapSet_nodup hndtail h1 with h2 | ⟨h2, _⟩
            · subst h2
              have hc := hkey _ (List.mem_append.mpr (Or.inr hmemtail))
              simpa using hc
            · exact hkey p (List.mem_append.mpr (Or.inr h2))
        · intro p hp
          rcases mem_mapSet_nodup hndtail hp with h2 | ⟨h2, _⟩
          · subst h2
            exact hall s (hsub s (List.mem_cons_self _ _))
          · exact htail p h2

lemma mergeSkills_idem (A : List Skill)
    (hA : ∀ s ∈ A, ((s.evidence.map evKey).Nodup) ∧
      ∀ e ∈ s.evidence, e.snippet.length ≤ 240) :
    mergeSkills (mergeSkills [] A) A = mergeSkills [] A := by
  have hgood : ∀ s ∈ A, ((s.evidence.map evKey).Nodup) ∧ ∀ e ∈ s.evidence, truncEv e = e :=
    fun s hs => ⟨(hA s hs).1, fun e he => truncEv_eq_self ((hA s hs).2 e he)⟩
  have hspecA : MapSpec A (A.foldl mergeIncoming []) := by
    have h := foldl_mergeIncoming_spec A [] [] mapSpec_nil
    simpa using h
  have hstabA : ∀ p ∈ A.foldl mergeIncoming [], StableEntry A p := by
    have h := foldl_mergeIncoming_stable A [] [] mapSpec_nil (by simp) hgood
    simpa using h
  obtain ⟨hnd, hkey, hiff, hent⟩ := hspecA
  have hinner : mergeSkills [] A = ((A.foldl mergeIncoming []).take 120).map Prod.snd := by
    unfold mergeSkills
    rw [show baseMap [] = ([] : SkillMap) from rfl, List.map_take]
  have hndtake : (((A.foldl mergeIncoming []).take 120).map Prod.fst).Nodup := by
    rw [List.map_take]
    exact List.Nodup.sublist (List.take_sublist 120 _) hnd
  have hkeytake : ∀ p ∈ (A.foldl mergeIncoming []).take 120, p.1 = normName p.2.name :=
    fun p hp => hkey p (List.mem_of_mem_take hp)
  have hevtake : ∀ p ∈ (A.foldl mergeIncoming []).take 120, p.2.evidence.length ≤ 3 :=
    fun p hp => (hent p (List.mem_of_mem_take hp)).2
  have hbase : baseMap (((A.foldl mergeIncoming []).take 120).map Prod.snd) =
      (A.foldl mergeIncoming []).take 120 :=
    baseMap_values hndtake hkeytake hevtake
  have hstabtake : ∀ p ∈ (A.foldl mergeIncoming []).take 120, StableEntry A p :=
    fun p hp => hstabA p (List.mem_of_mem_take hp)
  have hall : ∀ s ∈ A, normName s.name ∈ (A.foldl mergeIncoming []).map Prod.fst :=
    fun s hs => (hiff _).mpr ⟨s, hs, rfl⟩
  obtain ⟨tail2, hfold, hnd2, htail2⟩ := refold_aux A A (A.foldl mergeIncoming []) []
    (fun s hs => hs) hstabtake (by simpa using hndtake)
    (by simpa using hkeytake) hall (by simp)
  rw [List.append_nil] at hfold
  have houter : mergeSkills (mergeSkills [] A) A =
      (((A.foldl mergeIncoming []).take 120 ++ tail2).map Prod.snd).take 120 := by
    rw [hinner]
    unfold mergeSkills
    rw [hbase, hfold]
  rw [houter, hinner]
  by_cases hlen : (A.foldl mergeIncoming []).length ≤ 120
  · have htakeall : (A.foldl mergeIncoming []).take 120 = A.foldl mergeIncoming [] :=
      List.take_of_length_le hlen
    have htail2nil : tail2 = [] := by
      cases tail2 with
      | nil => rfl
      | cons q t =>
        exfalso
        rw [htakeall, List.map_append] at hnd2
        rcases List.nodup_append.mp hnd2 with ⟨_, _, hdisj⟩
        exact hdisj (htail2 q (List.mem_cons_self _ _)) (by simp)
    rw [htail2nil, List.append_nil]
    refine List.take_of_length_le ?_
    rw [List.length_map, List.length_take]
    omega
  · push_neg at hlen
    have hlen120 : (((A.foldl mergeIncoming []).take 120).map Prod.snd).length = 120 := by
      rw [List.length_map, List.length_take]
      omega
    rw [List.map_append]
    exact List.take_left' hlen120

lemma self_merge_twice (s : Skill) :
    ∀ t ∈ mergeSkills (mergeSkills [] [s]) [s],
      t.evidence.length ≤ 3 ∧ t.evidence.Nodup := by
  intro t ht
  rcases mem_of_mem_mergeSkills ht with ⟨p, hp, hpt⟩
  rw [List.foldl_cons, List.foldl_nil] at hp
  have hbase2 : baseMap (mergeSkills [] [s]) =
      [(normName s.name, { s with evidence := (s.evidence.take 3).take 3 })] := rfl
  have hget2 : mapGet [(normName s.name, { s with evidence := (s.evidence.take 3).take 3 })]
      (normName s.name) = some { s with evidence := (s.evidence.take 3).take 3 } := by
    rw [mapGet, if_pos rfl]
  have hstep : mergeIncoming
      [(normName s.name, { s with evidence := (s.evidence.take 3).take 3 })] s =
      [(normName s.name,
        { name := s.name,
          level := if levelRank s.level < levelRank s.level then s.level else s.level,
          evidence := dedupeEv ((s.evidence.take 3).take 3 ++ s.evidence) })] := by
    unfold mergeIncoming
    rw [hget2]
    dsimp only
    rw [mapSet, if_pos rfl]
  rw [hbase2, hstep] at hp
  have hpe : p = (normName s.name,
      { name := s.name,
        level := if levelRank s.level < levelRank s.level then s.level else s.level,
        evidence := dedupeEv ((s.evidence.take 3).take 3 ++ s.evidence) }) := by
    simpa using hp
  subst hpe
  rw [← hpt]
  refine ⟨dedupeEv_length_le _, ?_⟩
  exact List.Nodup.of_map evKey
    (dedupeEvGo_nodup_keys _ [] [] (by simp) (by simp))

/-- C3 counterexample: merging two one-skill lists that share a name but
carry different evidence is not commutative even up to reordering, since
the merged evidence lists of the single output skill differ in content
order. -/
theorem C3_counterexample :
    ¬ List.Perm
      (mergeSkills [⟨['x'], beginnerStr, [⟨['a'], ['e', '1']⟩]⟩]
                   [⟨['x'], beginnerStr, [⟨['a'], ['e', '2']⟩]⟩])
      (mergeSkills [⟨['x'], beginnerStr, [⟨['a'], ['e', '2']⟩]⟩]
                   [⟨['x'], beginnerStr, [⟨['a'], ['e', '1']⟩]⟩]) := by decide

/-- C3 amended: for skill lists whose evidence lists are duplicate-free by
(artifactId, snippet) key with snippets of at most 240 characters, merging
A into merge([], A) again yields exactly the same skill list; and merging a
skill with itself twice never grows its evidence count beyond 3 and never
duplicates an identical (artifactId, snippet) pair.  Commutativity fails in
general: merge(A, B) and merge(B, A) can differ even up to reordering. -/
theorem C3_idempotence_bounded_evidence (A : List Skill)
    (hA : ∀ s ∈ A, ((s.evidence.map evKey).Nodup) ∧
      ∀ e ∈ s.evidence, e.snippet.length ≤ 240) :
    mergeSkills (mergeSkills [] A) A = mergeSkills [] A ∧
    ∀ s : Skill, ∀ t ∈ mergeSkills (mergeSkills [] [s]) [s],
      t.evidence.length ≤ 3 ∧ t.evidence.Nodup :=
  ⟨mergeSkills_idem A hA, fun s => self_merge_twice s⟩

/-- C3 witness: re-merging a concrete one-skill list is the identity. -/
theorem C3_witness :
    (∀ s ∈ ([⟨['x'], beginnerStr, [⟨['a'], ['e']⟩]⟩] : List Skill),
      ((s.evidence.map evKey).Nodup) ∧ ∀ e ∈ s.evidence, e.snippet.length ≤ 240) ∧
    mergeSkills (mergeSkills [] [⟨['x'], beginnerStr, [⟨['a'], ['e']⟩]⟩])
        [⟨['x'], beginnerStr, [⟨['a'], ['e']⟩]⟩]
      = mergeSkills [] [⟨['x'], beginnerStr, [⟨['a'], ['e']⟩]⟩] :=
  ⟨by decide,
   (C3_idempotence_bounded_evidence [⟨['x'], beginnerStr, [⟨['a'], ['e']⟩]⟩] (by decide)).1⟩
